import Mathlib

/-!
Shallow embedding of `src/streets.c`, an in-memory street-map query engine.

Conventions used throughout this development:

* C `int` becomes `Int`; sentinel values (`-1` for "no parent" / heap
  underflow) are kept as in the source.
* C `double`/`float` quantities (distances, speeds, travel times) are
  modelled as exact rationals `ℚ`.  The one floating-point computation that
  cannot be embedded exactly, the haversine `distance_between_nodes`
  (trigonometry on `double`), is abstracted as an explicit parameter
  `d : Int → Int → ℚ` giving the distance between two nodes identified by
  id; every function that calls `distance_between_nodes` in C takes `d` as
  an argument here.  All claims are stated for arbitrary `d` or for
  concrete rational instances of it.
* C arrays are Lean lists; `struct` pointers become the structures
  themselves.  A fully populated map (no `NULL` slots, which the query
  functions assume) is modelled by plain lists indexed by id.
* Loops with early `return`/`break` are rendered with `List.find?`,
  `List.any`, `List.all`, `List.foldl`, or fuel-based structural recursion;
  in each case the fuel passed at the call site is large enough to cover
  the C iteration count (this is proved where a claim depends on it).
-/

/-- Element of the priority queue: `heap_node` from streets.c
(`node_id : int`, `distance : double`). -/
structure HeapNode where
  node_id : Int
  distance : ℚ
deriving DecidableEq

instance : Inhabited HeapNode := ⟨⟨0, 0⟩⟩

/-- The `min_heap` structure: a dynamic array of `heap_node` (modelled as the
list of its `size` live elements) plus the fixed `capacity`. -/
structure MinHeap where
  elements : List HeapNode
  capacity : Nat
deriving DecidableEq

/-- The pointer-swap `swap_heap_node` applied to positions `i`, `j` of the
element array. -/
def swap_heap_node (l : List HeapNode) (i j : Nat) : List HeapNode :=
  (l.set i (l.getD j default)).set j (l.getD i default)

/-- The child-selection logic of `min_heapify` (the `smallest` computation):
index of the smaller in-bounds child if it beats the current node, else the
current index. -/
def heapifyTarget (l : List HeapNode) (idx : Nat) : Nat :=
  let left := 2 * idx + 1
  let right := 2 * idx + 2
  let s1 := if left < l.length ∧
      (l.getD left default).distance < (l.getD idx default).distance then left else idx
  if right < l.length ∧
      (l.getD right default).distance < (l.getD s1 default).distance then right else s1

/-- The recursive `min_heapify` from streets.c.  The C recursion descends to a
child index, so its depth is bounded by the array length; `fuel` makes the
recursion structural and is instantiated with a sufficient bound at every
call site. -/
def min_heapify : Nat → List HeapNode → Nat → List HeapNode
  | 0, l, _ => l
  | Nat.succ fuel, l, idx =>
    let s2 := heapifyTarget l idx
    if s2 ≠ idx then min_heapify fuel (swap_heap_node l idx s2) s2 else l

/-- The `extract_min` operation from streets.c.  On an empty heap it returns
the sentinel `heap_node {-1, 0}` and leaves the heap untouched; otherwise it
removes the root, moves the last element to the front and re-heapifies. -/
def extract_min (h : MinHeap) : HeapNode × MinHeap :=
  match h.elements with
  | [] => (⟨-1, 0⟩, h)
  | root :: rest =>
    if hr : rest = [] then (root, { h with elements := [] })
    else
      let moved := rest.getLast hr :: rest.dropLast
      (root, { h with elements := min_heapify moved.length moved 0 })

/-- The sift-up `while` loop shared by `insert_min_heap` and `decrease_key`:
while `i ≠ 0` and the parent's distance exceeds the current one, swap with the
parent and move to `(i-1)/2`.  The index strictly decreases, so fuel `i + 1`
always suffices; the fuel keeps the recursion structural. -/
def sift_up : Nat → List HeapNode → Nat → List HeapNode
  | 0, l, _ => l
  | Nat.succ fuel, l, i =>
    if i ≠ 0 ∧ (l.getD ((i - 1) / 2) default).distance > (l.getD i default).distance then
      sift_up fuel (swap_heap_node l i ((i - 1) / 2)) ((i - 1) / 2)
    else l

/-- The index-carrying linear scan of `decrease_key`: position of the first
element with the given `node_id`, starting the count at `k`. -/
def scan_heap_idx (node_id : Int) : Nat → List HeapNode → Option Nat
  | _, [] => none
  | k, e :: rest => if e.node_id == node_id then some k else scan_heap_idx node_id (k + 1) rest

/-- The `decrease_key` operation from streets.c: linear scan for the first
element with the given `node_id`, overwrite its distance, then sift up. -/
def decrease_key (h : MinHeap) (node_id : Int) (distance : ℚ) : MinHeap :=
  match scan_heap_idx node_id 0 h.elements with
  | none => h
  | some i =>
    let l := h.elements.set i ⟨node_id, distance⟩
    { h with elements := sift_up (i + 1) l i }

/-- The `is_in_min_heap` linear membership scan from streets.c. -/
def is_in_min_heap (h : MinHeap) (node_id : Int) : Bool :=
  h.elements.any (fun e => e.node_id == node_id)

/-- The `insert_min_heap` operation from streets.c.  When `size == capacity`
the push returns early without inserting; otherwise the new entry is placed at
the end and sifted up. -/
def insert_min_heap (h : MinHeap) (node_id : Int) (distance : ℚ) : MinHeap :=
  if h.elements.length = h.capacity then h
  else
    let l := h.elements ++ [⟨node_id, distance⟩]
    { h with elements := sift_up (l.length) l (l.length - 1) }

/-- The `create_min_heap` constructor (successful-allocation case). -/
def create_min_heap (capacity : Nat) : MinHeap := ⟨[], capacity⟩

/-- A road segment: `struct way` from streets.c.  The display name is a list
of characters; `max_speed` (a C `float`) is an exact rational. -/
structure Way where
  id : Int
  name : List Char
  max_speed : ℚ
  one_way : Bool
  node_ids : List Int
deriving DecidableEq

instance : Inhabited Way := ⟨⟨0, [], 1, false, []⟩⟩

/-- A map point: `struct node` from streets.c.  Latitude and longitude are
carried as exact rationals; they are only consumed by the abstracted distance
oracle.  `ways` is the node's incident-segment list (the C array of `way`
pointers, here the referenced structures themselves). -/
structure Node where
  id : Int
  lat : ℚ
  lon : ℚ
  ways : List Way
deriving DecidableEq

instance : Inhabited Node := ⟨⟨0, 0, 0, []⟩⟩

/-- The whole map: `struct ssmap`, with both arrays fully populated and
indexed by id (`num_nodes = nodes.length`, `num_ways = ways.length`). -/
structure SSMap where
  nodes : List Node
  ways : List Way
deriving DecidableEq

/-- Array access `m->nodes[id]` (callers establish the bounds as in C). -/
def getNode (m : SSMap) (id : Int) : Node := m.nodes.getD id.toNat default

/-- Array access `m->ways[id]`. -/
def getWay (m : SSMap) (id : Int) : Way := m.ways.getD id.toNat default

/-- The bounds-and-existence test used everywhere in streets.c:
`id < 0 || id >= m->num_nodes || m->nodes[id] == NULL` (the `NULL` case is
absent in a populated map). -/
def nodeOk (m : SSMap) (id : Int) : Bool :=
  decide (0 ≤ id) && decide (id < (m.nodes.length : Int))

/-- The index-carrying scan behind `find_node_index_in_way`, mirroring its
`for` loop: return the position (counted from `k`) of the first occurrence of
`node_id`, or `-1`. -/
def findIdxFrom (node_id : Int) : Nat → List Int → Int
  | _, [] => -1
  | k, x :: rest => if x == node_id then (k : Int) else findIdxFrom node_id (k + 1) rest

/-- The linear scan `find_node_index_in_way`: index of the first occurrence of
`node_id` in the way's sequence, `-1` if absent. -/
def find_node_index_in_way (w : Way) (node_id : Int) : Int :=
  findIdxFrom node_id 0 w.node_ids

/-- Consecutive pairs of a list: the index loop `for i in 0 .. size-2` over
`(node_ids[i], node_ids[i+1])`. -/
def adjPairs (l : List Int) : List (Int × Int) := l.zip l.tail

/-- The shared-way test of validation pass 3 (`error_three_bool`): some way in
the first node's list has the same id as some way in the second node's list. -/
def sharesWay (n1 n2 : Node) : Bool :=
  n1.ways.any (fun w1 => n2.ways.any (fun w2 => w1.id == w2.id))

/-- The inner scan of validation pass 4: `current` and `next` occur at
consecutive positions `(l, l+1)` of the way's sequence, in either order. -/
def adjacentInWay (w : Way) (current next : Int) : Bool :=
  (adjPairs w.node_ids).any (fun p =>
    (p.1 == current && p.2 == next) || (p.1 == next && p.2 == current))

/-- The inner scan of validation pass 5 and of the travel-time computation
loop: on a one-way way the pair must appear in the order `current`, `next`;
on a two-way way either order is accepted.  This is the code's direct-step
test for one way. -/
def stepOk (w : Way) (current next : Int) : Bool :=
  (adjPairs w.node_ids).any (fun p =>
    if w.one_way then p.1 == current && p.2 == next
    else (p.1 == current && p.2 == next) || (p.1 == next && p.2 == current))

/-- Validation pass 4 for one adjacent pair: scan the first node's way list,
require a way also present (by id) in the second node's list in which the two
are adjacent. -/
def pass4Ok (m : SSMap) (current next : Int) : Bool :=
  (getNode m current).ways.any (fun w1 =>
    (getNode m next).ways.any (fun w2 => w1.id == w2.id) && adjacentInWay w1 current next)

/-- Validation pass 5 for one adjacent pair. -/
def pass5Ok (m : SSMap) (current next : Int) : Bool :=
  (getNode m current).ways.any (fun w1 =>
    (getNode m next).ways.any (fun w2 => w1.id == w2.id) && stepOk w1 current next)

/-- The `way_id` computation of the travel-time loop (streets.c lines
988-1003).  `way_id` starts at 0 and is overwritten on every scanned way of
the first node's list that is shared with the second node and passes the
direct-step test; only the innermost loop is broken out of, so the final
value is the id of the LAST such way in the scan. -/
def chooseWayId (m : SSMap) (current next : Int) : Int :=
  (getNode m current).ways.foldl (fun acc w =>
    if (getNode m next).ways.any (fun w2 => w2.id == w.id) && stepOk w current next
    then w.id else acc) 0

/-- The five error lines of §7 that `ssmap_path_travel_time` can print, with
their arguments. -/
inductive TTErr where
  | nodeNotExist (id : Int)
  | nodeRepeated (id : Int)
  | noRoads (u v : Int)
  | notDirect (u v : Int)
  | goReverse (u v : Int)
deriving DecidableEq

/-- Exact text of each error line (printf format instantiated). -/
def TTErr.render : TTErr → String
  | .nodeNotExist id => "error: node " ++ toString id ++ " does not exist.\n"
  | .nodeRepeated id => "error: node " ++ toString id ++ " appeared more than once.\n"
  | .noRoads u v => "error: there are no roads between node " ++ toString u ++
      " and node " ++ toString v ++ ".\n"
  | .notDirect u v => "error: cannot go directly from node " ++ toString u ++
      " to node " ++ toString v ++ ".\n"
  | .goReverse u v => "error: cannot go in reverse from node " ++ toString u ++
      " to node " ++ toString v ++ ".\n"

/-- Observable outcome of `ssmap_path_travel_time`: the error line printed (if
any) and the returned `double` (`-1.0` on every error path). -/
structure TTOut where
  msg : Option TTErr
  ret : ℚ
deriving DecidableEq

/-- The validator `ssmap_path_travel_time` (streets.c lines 872-1022), with
the haversine abstracted as `d`.  The five validation passes run in source
order, each returning on its first offending element; after validation the
travel time is accumulated as `Σ distance/speed` and scaled by 60 on return. -/
def ssmap_path_travel_time (m : SSMap) (d : Int → Int → ℚ) (ids : List Int) : TTOut :=
  match ids.find? (fun id => !(nodeOk m id)) with
  | some id => ⟨some (.nodeNotExist id), -1⟩
  | none =>
    match ids.find? (fun id => decide (1 < ids.count id)) with
    | some id => ⟨some (.nodeRepeated id), -1⟩
    | none =>
      match (adjPairs ids).find? (fun p => !(sharesWay (getNode m p.1) (getNode m p.2))) with
      | some p => ⟨some (.noRoads p.1 p.2), -1⟩
      | none =>
        match (adjPairs ids).find? (fun p => !(pass4Ok m p.1 p.2)) with
        | some p => ⟨some (.notDirect p.1 p.2), -1⟩
        | none =>
          match (adjPairs ids).find? (fun p => !(pass5Ok m p.1 p.2)) with
          | some p => ⟨some (.goReverse p.1 p.2), -1⟩
          | none =>
            let t := (adjPairs ids).foldl (fun acc p =>
              acc + d p.1 p.2 / (getWay m (chooseWayId m p.1 p.2)).max_speed) 0
            ⟨none, t * 60⟩

/-- Pointwise update of a function-modelled C array (`arr[x] = v`). -/
def updA {α : Type} (f : Int → α) (x : Int) (v : α) : Int → α :=
  fun y => if y = x then v else f y

/-- Working state of `ssmap_path_create`'s Dijkstra loop: the `dist`
(`none` = `INFINITY`), `visited` and `parent` arrays, the priority queue, and
whether the `u == end_id` break was taken. -/
structure DState where
  dist : Int → Option ℚ
  visited : Int → Bool
  parent : Int → Int
  heap : MinHeap
  finished : Bool

/-- The comparison `alt < dist[v]` where `dist[v]` may be `INFINITY`. -/
def ltDist (alt : ℚ) : Option ℚ → Bool
  | none => true
  | some q => decide (alt < q)

/-- Candidate neighbors of `u` inside one way, exactly as generated by
streets.c lines 1090-1102: take the index returned by
`find_node_index_in_way` (the FIRST occurrence of `u`), look at offsets `-1`
and `+1`, keep indices in bounds, and skip offset `-1` on a one-way way. -/
def wayNeighbors (w : Way) (u : Int) : List Int :=
  let node_index := find_node_index_in_way w u
  ([-1, 1] : List Int).foldr (fun offset acc =>
    let next_node_index := node_index + offset
    if 0 ≤ next_node_index ∧ next_node_index < (w.node_ids.length : Int) then
      if w.one_way ∧ offset < 0 then acc
      else w.node_ids.getD next_node_index.toNat 0 :: acc
    else acc) []

/-- Relaxation of a single neighbor `v` of `u` through way `w` (streets.c
lines 1104-1118): guard `!visited[v] && dist[u] != INFINITY`, compute
`alt = dist[u] + d(u,v)/max_speed*60`, and on improvement update `dist`,
`parent` and the queue (insert or decrease-key). -/
def relaxOne (d : Int → Int → ℚ) (st : DState) (u : Int) (w : Way) (v : Int) : DState :=
  if st.visited v then st
  else
    match st.dist u with
    | none => st
    | some du =>
      let alt := du + d u v / w.max_speed * 60
      if ltDist alt (st.dist v) then
        let st' := { st with dist := updA st.dist v (some alt), parent := updA st.parent v u }
        if is_in_min_heap st'.heap v then
          { st' with heap := decrease_key st'.heap v alt }
        else
          { st' with heap := insert_min_heap st'.heap v alt }
      else st
  
/-- One iteration of the Dijkstra `while` loop body (streets.c lines
1076-1122): extract the minimum, mark it visited, break if it is the end,
otherwise relax every candidate neighbor along every way incident to it. -/
def dstep (m : SSMap) (d : Int → Int → ℚ) (end_id : Int) (st : DState) : DState :=
  let p := extract_min st.heap
  let u := p.1.node_id
  let st1 := { st with heap := p.2, visited := updA st.visited u true }
  if u = end_id then { st1 with finished := true }
  else
    (getNode m u).ways.foldl (fun acc w =>
      (wayNeighbors w u).foldl (fun acc2 v => relaxOne d acc2 u w v) acc) st1

/-- The Dijkstra `while (min_heap->size > 0)` loop, fuel-bounded.  The loop
makes at most `m.nodes.length` iterations on a well-formed map (each node is
inserted into the queue at most once and every iteration removes one
element); `run_dijkstra` is always called with that fuel. -/
def run_dijkstra (m : SSMap) (d : Int → Int → ℚ) (end_id : Int) :
    Nat → DState → DState
  | 0, st => st
  | Nat.succ fuel, st =>
    if st.finished ∨ st.heap.elements.length = 0 then st
    else run_dijkstra m d end_id fuel (dstep m d end_id st)

/-- Initial Dijkstra state (streets.c lines 1058-1073): every distance
`INFINITY`, nothing visited, every parent `-1`, the queue seeded with the
start at distance `0`, then `dist[start_id] = 0`. -/
def initState (m : SSMap) (start_id : Int) : DState :=
  { dist := updA (fun _ => none) start_id (some 0)
    visited := fun _ => false
    parent := fun _ => -1
    heap := insert_min_heap (create_min_heap m.nodes.length) start_id 0
    finished := false }

/-- The path-reconstruction stack walk (streets.c lines 1127-1131): follow
`parent` from `at_` until `-1`, collecting ids.  The C stack holds at most
`num_nodes` entries; the fuel models that bound. -/
def parentChain (parent : Int → Int) : Nat → Int → List Int
  | 0, _ => []
  | Nat.succ fuel, at_ =>
    if at_ = -1 then [] else at_ :: parentChain parent fuel (parent at_)

/-- Observable outcome of `ssmap_path_create`: the "node does not exist"
error printed for a missing endpoint (if any) and the printed id sequence
(`none` when no path line is emitted). -/
structure PCOut where
  err : Option Int
  out : Option (List Int)
deriving DecidableEq

/-- Final Dijkstra state reached by `ssmap_path_create` for existing distinct
endpoints. -/
def dijkstraFinal (m : SSMap) (d : Int → Int → ℚ) (start_id end_id : Int) : DState :=
  run_dijkstra m d end_id m.nodes.length (initState m start_id)

/-- The router `ssmap_path_create` (streets.c lines 1038-1140): endpoint
existence checks, the degenerate `start == end` case (printed verbatim as
`start end`), the Dijkstra loop, and path reconstruction — the path line is
only printed when `parent[end_id] != -1`, the stack contents reversed. -/
def ssmap_path_create (m : SSMap) (d : Int → Int → ℚ) (start_id end_id : Int) : PCOut :=
  if !(nodeOk m start_id) then ⟨some start_id, none⟩
  else if !(nodeOk m end_id) then ⟨some end_id, none⟩
  else if start_id = end_id then ⟨none, some [start_id, end_id]⟩
  else
    let st := dijkstraFinal m d start_id end_id
    if st.parent end_id = -1 then ⟨none, none⟩
    else ⟨none, (parentChain st.parent m.nodes.length end_id).reverse⟩

/-- Substring containment as computed by C `strstr`: some suffix of the
haystack starts with the needle. -/
def strContains (hay needle : List Char) : Bool :=
  (List.range (hay.length + 1)).any (fun i => ((hay.drop i).take needle.length) == needle)

/-- The `ways_with_name` arrays of `ssmap_find_node_by_names` (streets.c lines
708-725): the indices (= ids) of all ways whose name contains the given
substring, in increasing order. -/
def waysWithName (m : SSMap) (nm : List Char) : List Int :=
  ((List.range m.ways.length).filter
    (fun i => strContains (m.ways.getD i default).name nm)).map Nat.cast

/-- The per-node test of the two-name branch of `ssmap_find_node_by_names`
(streets.c lines 771-816).  With the break structure of the source, the node
qualifies iff some incident way's id matches an entry `a` of the first list
and some (other position's) incident way's id matches an entry `b` of the
second list with `a ≠ b`. -/
def nodeMatchesTwo (m : SSMap) (node : Node) (n1 n2 : List Char) : Bool :=
  node.ways.any (fun w1 =>
    (waysWithName m n1).any (fun a =>
      w1.id == a &&
      node.ways.any (fun w2 =>
        (waysWithName m n2).any (fun b => w2.id == b && !(a == b)))))

/-- The per-node test of the single-name branch (streets.c lines 746-769). -/
def nodeMatchesOne (m : SSMap) (node : Node) (n1 : List Char) : Bool :=
  node.ways.any (fun w1 => (waysWithName m n1).any (fun a => w1.id == a))

/-- The node search `ssmap_find_node_by_names`: ids printed, in increasing
order, for nodes satisfying the one- or two-name test. -/
def ssmap_find_node_by_names (m : SSMap) (n1 : List Char) (n2 : Option (List Char)) :
    List Int :=
  ((List.range m.nodes.length).filter (fun i =>
    let node := m.nodes.getD i default
    match n2 with
    | none => nodeMatchesOne m node n1
    | some nm2 => nodeMatchesTwo m node n1 nm2)).map Nat.cast

/-- Some way of the map connects `u` directly to `v` in a legal direction:
the spec's `step(u, v, s)` holds for some segment `s` of the map. -/
def anyStep (m : SSMap) (u v : Int) : Bool :=
  m.ways.any (fun w => stepOk w u v)

/-- Some way of the map lists `u` and `v` at consecutive positions (in either
order), i.e. the pair is directly connected ignoring directionality. -/
def anyAdjacent (m : SSMap) (u v : Int) : Bool :=
  m.ways.any (fun w => adjacentInWay w u v)

/-- A pair that violates direction respect: some segment lists the two points
adjacently, but no segment allows the step `u → v` (so every connecting
segment is one-way and lists `v` before `u`). -/
def badPair (m : SSMap) (u v : Int) : Prop :=
  anyAdjacent m u v = true ∧ anyStep m u v = false

/-- One legal direct step, as a relation. -/
def stepRel (m : SSMap) (u v : Int) : Prop := anyStep m u v = true

/-- A directed path of legal steps exists from `u` to `v`. -/
def Reach (m : SSMap) (u v : Int) : Prop := Relation.ReflTransGen (stepRel m) u v

/-- Well-formedness of a populated map, the invariants of spec §3: ids equal
array indices, every way referenced by a node is the map's way of that id and
mentions the node, and every node id mentioned by a way is in range. -/
def wfB (m : SSMap) : Bool :=
  (List.range m.nodes.length).all (fun i => (m.nodes.getD i default).id == (i : Int)) &&
  (List.range m.ways.length).all (fun j => (m.ways.getD j default).id == (j : Int)) &&
  m.nodes.all (fun n => n.ways.all (fun w =>
    decide (0 ≤ w.id) && decide (w.id < (m.ways.length : Int)) &&
    (getWay m w.id == w) && w.node_ids.any (fun x => x == n.id))) &&
  m.ways.all (fun w => w.node_ids.all (fun v =>
    decide (0 ≤ v) && decide (v < (m.nodes.length : Int))))

/-- Propositional form of map well-formedness. -/
def WF (m : SSMap) : Prop := wfB m = true

/-- The ways qualifying for the travel-time computation of one adjacent pair,
in the validator's scan order over the first node's way list. -/
def qualWays (m : SSMap) (current next : Int) : List Way :=
  (getNode m current).ways.filter (fun w =>
    (getNode m next).ways.any (fun w2 => w2.id == w.id) && stepOk w current next)

/-- Id of the LAST qualifying way in scan order (0 when none exists). -/
def lastQualId (m : SSMap) (current next : Int) : Int :=
  ((qualWays m current next).getLast?.map Way.id).getD 0

/-- Id of the FIRST qualifying way in scan order (0 when none exists). -/
def firstQualId (m : SSMap) (current next : Int) : Int :=
  ((qualWays m current next).head?.map Way.id).getD 0

/-- Modelled from the spec: the travel time that §4.4 prescribes when the
validator is required to use the FIRST qualifying segment in scan order
(first discovered while scanning the first point's segment list).  Used to
compare the claimed behaviour with the code's. -/
def specTravelTimeFirst (m : SSMap) (d : Int → Int → ℚ) (ids : List Int) : ℚ :=
  ((adjPairs ids).foldl (fun acc p =>
    acc + d p.1 p.2 / (getWay m (firstQualId m p.1 p.2)).max_speed) 0) * 60

/-- The travel time computed with the LAST qualifying segment of each
adjacent pair — what the code actually does. -/
def travelTimeLast (m : SSMap) (d : Int → Int → ℚ) (ids : List Int) : ℚ :=
  ((adjPairs ids).foldl (fun acc p =>
    acc + d p.1 p.2 / (getWay m (lastQualId m p.1 p.2)).max_speed) 0) * 60

/-- Declarative validation pass 1 (existence): every id is in range. -/
def Pass1 (m : SSMap) (ids : List Int) : Prop := ∀ id ∈ ids, nodeOk m id = true

/-- Declarative validation pass 2 (uniqueness): no id appears twice. -/
def Pass2 (ids : List Int) : Prop := ids.Nodup

/-- Declarative validation pass 3 (co-membership). -/
def Pass3 (m : SSMap) (ids : List Int) : Prop :=
  ∀ p ∈ adjPairs ids, sharesWay (getNode m p.1) (getNode m p.2) = true

/-- Declarative validation pass 4 (direct adjacency). -/
def Pass4 (m : SSMap) (ids : List Int) : Prop :=
  ∀ p ∈ adjPairs ids, pass4Ok m p.1 p.2 = true

/-- Declarative validation pass 5 (directionality). -/
def Pass5 (m : SSMap) (ids : List Int) : Prop :=
  ∀ p ∈ adjPairs ids, pass5Ok m p.1 p.2 = true

/-- A first occurrence of `u` in the way's sequence at position `i`. -/
def IsFirstOcc (w : Way) (u : Int) (i : Nat) : Prop :=
  i < w.node_ids.length ∧ w.node_ids.getD i 0 = u ∧ ∀ j < i, w.node_ids.getD j 0 ≠ u

/-- The neighbor candidates the router would generate around position `i` of
a way: the entry at `i - 1` (unless the way is one-way or `i = 0`) and the
entry at `i + 1` (unless `i` is last). -/
def neighborsAt (w : Way) (i : Nat) : List Int :=
  (if ¬w.one_way ∧ 0 < i then [w.node_ids.getD (i - 1) 0] else []) ++
  (if i + 1 < w.node_ids.length then [w.node_ids.getD (i + 1) 0] else [])

/-- Multiset of node ids currently stored in the queue. -/
def heapIds (h : MinHeap) : List Int := h.elements.map HeapNode.node_id

/-- Example way for the parallel-segment scenarios: two-way, 60 km/h,
sequence 0, 1. -/
def wayA : Way := ⟨0, ['A'], 60, false, [0, 1]⟩

/-- Parallel two-way way over the same two nodes at 10 km/h. -/
def wayB : Way := ⟨1, ['B'], 10, false, [0, 1]⟩

/-- Two nodes joined by the two parallel ways `wayA` (fast) and `wayB`
(slow), scanned in that order from both endpoints. -/
def mapA : SSMap :=
  ⟨[⟨0, 0, 0, [wayA, wayB]⟩, ⟨1, 0, 1, [wayA, wayB]⟩], [wayA, wayB]⟩

/-- Distance oracle assigning length 1 km to every node pair (symmetric and
nonnegative, realizable by actual coordinates). -/
def dOne : Int → Int → ℚ := fun _ _ => 1

/-- Ways of the optimality scenario: the same two parallel ways plus a
two-hop 30 km/h detour through node 2. -/
def wayC : Way := ⟨2, ['C'], 30, false, [0, 2]⟩

/-- Second leg of the detour. -/
def wayD : Way := ⟨3, ['D'], 30, false, [2, 1]⟩

/-- Three nodes: 0 and 1 joined by parallel ways `wayA`/`wayB` and by the
detour `wayC`, `wayD` through node 2. -/
def mapB : SSMap :=
  ⟨[⟨0, 0, 0, [wayA, wayB, wayC]⟩, ⟨1, 0, 1, [wayA, wayB, wayD]⟩,
    ⟨2, 0, 2, [wayC, wayD]⟩], [wayA, wayB, wayC, wayD]⟩

/-- Way "Main" of the spec §8 scenario map. -/
def wayS0 : Way := ⟨0, ['M', 'a', 'i', 'n'], 60, false, [0, 1, 2]⟩

/-- Way "Main St" (one-way) of the spec §8 scenario map. -/
def wayS1 : Way := ⟨1, ['M', 'a', 'i', 'n', ' ', 'S', 't'], 60, true, [2, 3]⟩

/-- Way "Oak" of the spec §8 scenario map. -/
def wayS2 : Way := ⟨2, ['O', 'a', 'k'], 30, false, [1, 4]⟩

/-- The scenario map of spec §8: five nodes, ways Main, Main St (one-way)
and Oak. -/
def mapS : SSMap :=
  ⟨[⟨0, 0, 0, [wayS0]⟩, ⟨1, 0, 1, [wayS0, wayS2]⟩, ⟨2, 0, 2, [wayS0, wayS1]⟩,
    ⟨3, 0, 3, [wayS1]⟩, ⟨4, 0, 4, [wayS2]⟩], [wayS0, wayS1, wayS2]⟩

/-- A way with a repeated node, for the first-occurrence claim: two-way,
sequence 1, 0, 2, 0, 3. -/
def wayR : Way := ⟨0, ['R'], 50, false, [1, 0, 2, 0, 3]⟩

/-- Invariant of the Dijkstra loop, relative to the start node `s`: queue ids
are distinct, in range, unvisited and reachable from `s`; every assigned
parent edge is a legal direct step and its target is reachable from `s`. -/
def DInv (m : SSMap) (s : Int) (st : DState) : Prop :=
  (heapIds st.heap).Nodup ∧
  (∀ v ∈ heapIds st.heap,
    (0 ≤ v ∧ v < (m.nodes.length : Int)) ∧ st.visited v = false ∧ Reach m s v) ∧
  (∀ v, st.parent v ≠ -1 → stepRel m (st.parent v) v ∧ Reach m s v)

/-- Termination measure of the Dijkstra loop: queue size plus the number of
in-range nodes that are neither visited nor queued.  Every loop iteration
strictly decreases it (proved below), bounding the iteration count by
`m.nodes.length`. -/
def dMeasure (m : SSMap) (st : DState) : Nat :=
  st.heap.elements.length +
  ((List.range m.nodes.length).filter (fun (v : Nat) =>
    !(st.visited (v : Int)) &&
    !((heapIds st.heap).any (fun x => x == (v : Int))))).length

/-- Claim C8: pushing a (point, cost) entry onto a priority queue whose size
equals its capacity is refused outright — `insert_min_heap` abandons the push
and leaves the queue exactly as it was, producing no recoverable user-error
result (no message, no sentinel). -/
theorem claim_C8_full_push_noop (h : MinHeap) (node_id : Int) (distance : ℚ)
    (hfull : h.elements.length = h.capacity) :
    insert_min_heap h node_id distance = h := by
  simp [insert_min_heap, hfull]

/-- Witness for C8 at a concrete full queue. -/
theorem claim_C8_full_push_noop_witness :
    (MinHeap.mk [⟨0, 0⟩] 1).elements.length = (MinHeap.mk [⟨0, 0⟩] 1).capacity ∧
    insert_min_heap (MinHeap.mk [⟨0, 0⟩] 1) 5 3 = MinHeap.mk [⟨0, 0⟩] 1 :=
  ⟨by decide, claim_C8_full_push_noop (MinHeap.mk [⟨0, 0⟩] 1) 5 3 (by decide)⟩

/-- Claim C9: `extract_min` on an empty queue returns the sentinel entry with
node id `-1` and distance `0`, and returns the queue unchanged (its size
stays `0`); it inspects no element storage at all. -/
theorem claim_C9_empty_extract_sentinel (h : MinHeap) (hempty : h.elements = []) :
    extract_min h = (⟨-1, 0⟩, h) := by
  simp [extract_min, hempty]

/-- Witness for C9 at a concrete empty queue. -/
theorem claim_C9_empty_extract_sentinel_witness :
    (create_min_heap 3).elements = [] ∧
    extract_min (create_min_heap 3) = (⟨-1, 0⟩, create_min_heap 3) :=
  ⟨by decide, claim_C9_empty_extract_sentinel (create_min_heap 3) (by decide)⟩

/-- Claim C1 (code bug, evaluated at the failing input): on the well-formed
map `mapA` — nodes 0 and 1 joined by the parallel two-way ways `wayA`
(60 km/h, scanned first) and `wayB` (10 km/h, scanned last), one kilometre
apart — the router returns the non-trivial path `0 1` with internal cost
`dist[1] = 1` minute (it relaxes along the fastest way), but the validator's
travel time for that same path is `6` minutes, because its way-selection loop
breaks only out of the innermost scan and therefore keeps the LAST shared
way, `wayB`.  The spec's validator-router agreement invariant (§8.1) fails:
1 ≠ 6, far beyond floating tolerance. -/
theorem claim_C1_validator_router_disagreement :
    wfB mapA = true ∧
    ssmap_path_create mapA dOne 0 1 = ⟨none, some [0, 1]⟩ ∧
    (dijkstraFinal mapA dOne 0 1).dist 1 = some 1 ∧
    ssmap_path_travel_time mapA dOne [0, 1] = ⟨none, 6⟩ ∧
    (6 : ℚ) ≠ 1 := by
  refine ⟨by decide, ?_, ?_, ?_, by norm_num⟩ <;> with_unfolding_all decide

/-- Claim C2 (code bug, evaluated at the failing input): on the well-formed
map `mapB`, both `[0, 1]` and `[0, 2, 1]` validate (travel times 6 and 4
minutes).  The router returns `[0, 1]` (its internal, fastest-way cost is 1
minute), whose validator travel time 6 exceeds the validating alternative's
4 — the optimality invariant (§8.2) fails on the code. -/
theorem claim_C2_optimality_violated :
    wfB mapB = true ∧
    ssmap_path_create mapB dOne 0 1 = ⟨none, some [0, 1]⟩ ∧
    ssmap_path_travel_time mapB dOne [0, 1] = ⟨none, 6⟩ ∧
    ssmap_path_travel_time mapB dOne [0, 2, 1] = ⟨none, 4⟩ ∧
    ¬((6 : ℚ) ≤ 4) := by
  refine ⟨by decide, ?_, ?_, ?_, by norm_num⟩ <;> with_unfolding_all decide

/-- Counterexample to claim C3 as stated: on `mapA`, the sequence `[0, 1]`
validates, but the travel time the code returns is NOT the one computed with
the first qualifying segment of the scan order (`wayA`, 60 km/h, giving 1
minute) — the code returns 6 minutes, the value of the last qualifying
segment. -/
theorem claim_C3_cex_first_segment :
    wfB mapA = true ∧
    (ssmap_path_travel_time mapA dOne [0, 1]).msg = none ∧
    specTravelTimeFirst mapA dOne [0, 1] = 1 ∧
    (ssmap_path_travel_time mapA dOne [0, 1]).ret = 6 ∧
    (ssmap_path_travel_time mapA dOne [0, 1]).ret ≠ specTravelTimeFirst mapA dOne [0, 1] := by
  refine ⟨by decide, ?_, ?_, ?_, ?_⟩ <;> with_unfolding_all decide

/-- A fold that overwrites its accumulator with `w.id` whenever `q w` holds
computes the id of the last element satisfying `q` (or keeps the initial
accumulator). -/
theorem foldl_if_id_eq_getLast (q : Way → Bool) :
    ∀ (l : List Way) (a : Int),
      l.foldl (fun acc w => if q w then w.id else acc) a =
      ((l.filter q).getLast?.map Way.id).getD a := by
  intro l
  induction l with
  | nil => intro a; rfl
  | cons w t ih =>
    intro a
    cases hq : q w with
    | true =>
      simp only [List.foldl_cons, List.filter_cons, hq, if_true]
      rw [ih w.id]
      cases hft : t.filter q with
      | nil => simp
      | cons x xs =>
        cases hgl : (x :: xs).getLast? with
        | none => simp at hgl
        | some y => simp [List.getLast?_cons_cons, hgl]
    | false =>
      simp only [List.foldl_cons, List.filter_cons, hq, if_false]
      exact ih a

/-- The travel-time loop's way choice is the LAST qualifying way of the scan
order. -/
theorem chooseWayId_eq_lastQualId (m : SSMap) (u v : Int) :
    chooseWayId m u v = lastQualId m u v := by
  unfold chooseWayId lastQualId qualWays
  exact foldl_if_id_eq_getLast _ _ 0

/-- Claim C3, amended: when validation succeeds, the travel time the code
returns is the sum over adjacent pairs of `distance/speed(s)·60` where `s` is
the LAST segment satisfying the direct-step test in the scan order (the last
one discovered while scanning the first point's segment list) — not the
first. -/
theorem claim_C3_amended_last_segment (m : SSMap) (d : Int → Int → ℚ) (ids : List Int)
    (h : (ssmap_path_travel_time m d ids).msg = none) :
    (ssmap_path_travel_time m d ids).ret = travelTimeLast m d ids := by
  unfold ssmap_path_travel_time at h ⊢
  cases h1 : ids.find? (fun id => !(nodeOk m id)) with
  | some x => rw [h1] at h; simp at h
  | none =>
  rw [h1] at h
  cases h2 : ids.find? (fun id => decide (1 < ids.count id)) with
  | some x => rw [h2] at h; simp at h
  | none =>
  rw [h2] at h
  cases h3 : (adjPairs ids).find? (fun p => !(sharesWay (getNode m p.1) (getNode m p.2))) with
  | some x => rw [h3] at h; simp at h
  | none =>
  rw [h3] at h
  cases h4 : (adjPairs ids).find? (fun p => !(pass4Ok m p.1 p.2)) with
  | some x => rw [h4] at h; simp at h
  | none =>
  rw [h4] at h
  cases h5 : (adjPairs ids).find? (fun p => !(pass5Ok m p.1 p.2)) with
  | some x => rw [h5] at h; simp at h
  | none =>
  simp only [travelTimeLast, chooseWayId_eq_lastQualId]

/-- Witness for the amended C3 at the concrete parallel-way map. -/
theorem claim_C3_amended_last_segment_witness :
    (ssmap_path_travel_time mapA dOne [0, 1]).msg = none ∧
    (ssmap_path_travel_time mapA dOne [0, 1]).ret = travelTimeLast mapA dOne [0, 1] :=
  ⟨by with_unfolding_all decide,
   claim_C3_amended_last_segment mapA dOne [0, 1] (by with_unfolding_all decide)⟩

/-- Characterization of the index-carrying scan: it either reports `-1` and
nothing in the list equals the target, or it reports `k + j` where `j` is the
position of the first occurrence. -/
theorem findIdxFrom_spec (u : Int) :
    ∀ (l : List Int) (k : Nat),
      (findIdxFrom u k l = -1 ∧ ∀ x ∈ l, x ≠ u) ∨
      (∃ j, findIdxFrom u k l = ((k + j : Nat) : Int) ∧ j < l.length ∧
        l.getD j 0 = u ∧ ∀ t < j, l.getD t 0 ≠ u) := by
  intro l
  induction l with
  | nil => intro k; left; exact ⟨rfl, by simp⟩
  | cons x rest ih =>
    intro k
    by_cases hx : x = u
    · right
      refine ⟨0, ?_, Nat.succ_pos _, by simp [hx], by omega⟩
      simp [findIdxFrom, hx]
    · have hxb : (x == u) = false := by simp [hx]
      rcases ih (k + 1) with ⟨h1, h2⟩ | ⟨j, hj1, hj2, hj3, hj4⟩
      · left
        refine ⟨?_, ?_⟩
        · simp [findIdxFrom, hxb, h1]
        · intro y hy
          rcases List.mem_cons.mp hy with rfl | hy'
          · exact hx
          · exact h2 y hy'
      · right
        refine ⟨j + 1, ?_, by simpa using Nat.succ_lt_succ hj2, by simpa using hj3, ?_⟩
        · have : k + 1 + j = k + (j + 1) := by omega
          simp [findIdxFrom, hxb, hj1, this]
        · intro t ht
          cases t with
          | zero => simpa using hx
          | succ t' => simpa using hj4 t' (by omega)

/-- The candidate list generated inside one way depends only on the first
occurrence of `u`: it is exactly the in-bounds, direction-respecting
neighbors of that position. -/
theorem wayNeighbors_eq (w : Way) (u : Int) (j : Nat) (hj : j < w.node_ids.length)
    (hfind : find_node_index_in_way w u = (j : Int)) :
    wayNeighbors w u = neighborsAt w j := by
  unfold wayNeighbors neighborsAt
  rw [hfind]
  simp only [List.foldr_cons, List.foldr_nil]
  have ht1 : ((j : ℤ) + 1).toNat = j + 1 := by omega
  have ht2 : ((j : ℤ) + -1).toNat = j - 1 := by omega
  have e1 : ((0 : ℤ) ≤ (j : ℤ) + 1 ∧ (j : ℤ) + 1 < (w.node_ids.length : Int)) ↔
      j + 1 < w.node_ids.length := by omega
  have e2 : ((0 : ℤ) ≤ (j : ℤ) + -1 ∧ (j : ℤ) + -1 < (w.node_ids.length : Int)) ↔
      0 < j := by omega
  have e3 : (w.one_way = true ∧ (1 : ℤ) < 0) ↔ False := by simp
  have e4 : (w.one_way = true ∧ (-1 : ℤ) < 0) ↔ (w.one_way = true) := by simp
  simp only [ht1, ht2, e1, e2, e3, e4, if_false]
  by_cases h1 : j + 1 < w.node_ids.length <;>
    by_cases h0 : 0 < j <;>
      by_cases how : w.one_way = true <;>
        simp [h1, h0, how]

/-- Claim C10: when a point `u` occurs more than once in a way's sequence,
the router's neighbor generation along that way (`wayNeighbors`, the loop of
`ssmap_path_create` around `find_node_index_in_way`) works exclusively with
the FIRST occurrence: the candidate list is exactly the in-bounds,
direction-respecting entries adjacent to that first index, so later
occurrences contribute no edges. -/
theorem claim_C10_first_occurrence_neighbors (w : Way) (u : Int)
    (hcount : 1 < w.node_ids.count u) :
    ∃ i, IsFirstOcc w u i ∧ find_node_index_in_way w u = (i : Int) ∧
      wayNeighbors w u = neighborsAt w i := by
  have hmem : u ∈ w.node_ids := by
    by_contra hne
    have := List.count_eq_zero_of_not_mem hne
    omega
  rcases findIdxFrom_spec u w.node_ids 0 with ⟨_, h2⟩ | ⟨j, hj1, hj2, hj3, hj4⟩
  · exact absurd rfl (h2 u hmem)
  · refine ⟨j, ⟨hj2, hj3, hj4⟩, ?_, ?_⟩
    · simpa [find_node_index_in_way] using hj1
    · exact wayNeighbors_eq w u j hj2 (by simpa [find_node_index_in_way] using hj1)

/-- Witness for C10 on the concrete way `wayR` with node 0 at positions 1 and
3: all edges come from position 1. -/
theorem claim_C10_first_occurrence_neighbors_witness :
    1 < wayR.node_ids.count 0 ∧
    ∃ i, IsFirstOcc wayR 0 i ∧ find_node_index_in_way wayR 0 = (i : Int) ∧
      wayNeighbors wayR 0 = neighborsAt wayR i :=
  ⟨by decide, claim_C10_first_occurrence_neighbors wayR 0 (by decide)⟩

/-- Unpacked form of map well-formedness. -/
theorem wf_parts (m : SSMap) (hwf : WF m) :
    (∀ i < m.nodes.length, (m.nodes.getD i default).id = (i : Int)) ∧
    (∀ j < m.ways.length, (m.ways.getD j default).id = (j : Int)) ∧
    (∀ n ∈ m.nodes, ∀ w ∈ n.ways,
      0 ≤ w.id ∧ w.id < (m.ways.length : Int) ∧ getWay m w.id = w ∧ n.id ∈ w.node_ids) ∧
    (∀ w ∈ m.ways, ∀ v ∈ w.node_ids, 0 ≤ v ∧ v < (m.nodes.length : Int)) := by
  unfold WF wfB at hwf
  simp only [Bool.and_eq_true, List.all_eq_true, List.mem_range, beq_iff_eq,
    decide_eq_true_eq, List.any_eq_true] at hwf
  obtain ⟨⟨⟨hn, hw⟩, hnw⟩, hwv⟩ := hwf
  refine ⟨hn, hw, ?_, ?_⟩
  · intro n hnmem w hwmem
    obtain ⟨⟨⟨h1, h2⟩, h3⟩, x, hx, hxid⟩ := hnw n hnmem w hwmem
    exact ⟨h1, h2, h3, hxid ▸ hx⟩
  · intro w hwmem v hv
    have h := hwv w hwmem v hv
    tauto

/-- Membership in the `ways_with_name` array. -/
theorem mem_waysWithName (m : SSMap) (nm : List Char) (a : Int) :
    a ∈ waysWithName m nm ↔
      ∃ k, k < m.ways.length ∧ strContains (m.ways.getD k default).name nm = true ∧
        (k : Int) = a := by
  simp only [waysWithName, List.mem_map, List.mem_filter, List.mem_range]
  constructor
  · rintro ⟨k, ⟨hk, hc⟩, rfl⟩; exact ⟨k, hk, hc, rfl⟩
  · rintro ⟨k, hk, hc, rfl⟩; exact ⟨k, ⟨hk, hc⟩, rfl⟩

/-- For a way attached to a map node of a well-formed map, matching an entry
of `ways_with_name` by id is the same as the way's own name containing the
substring. -/
theorem wf_way_name_match (m : SSMap) (hwf : WF m) (n : Node) (hn : n ∈ m.nodes)
    (w : Way) (hw : w ∈ n.ways) (nm : List Char) :
    (∃ a ∈ waysWithName m nm, w.id = a) ↔ strContains w.name nm = true := by
  obtain ⟨-, -, hnw, -⟩ := wf_parts m hwf
  obtain ⟨h0, h1, h2, -⟩ := hnw n hn w hw
  constructor
  · rintro ⟨a, ha, rfl⟩
    obtain ⟨k, hk, hc, hka⟩ := (mem_waysWithName m nm _).mp ha
    have hgw : getWay m ((k : Nat) : Int) = m.ways.getD k default := by
      simp [getWay]
    rw [hka] at hgw
    rw [← h2, hgw]
    exact hc
  · intro hc
    refine ⟨w.id, (mem_waysWithName m nm w.id).mpr ⟨w.id.toNat, ?_, ?_, ?_⟩, rfl⟩
    · omega
    · have hgd : m.ways.getD w.id.toNat default = w := h2
      rw [hgd]; exact hc
    · omega

/-- Claim C7: the two-name search prints exactly the nodes incident (via
their way lists) to a way whose name contains the first substring and to a
DIFFERENT way (different id) whose name contains the second substring; a
single way containing both substrings does not qualify a node by itself. -/
theorem claim_C7_two_name_distinct (m : SSMap) (hwf : WF m) (n1 n2 : List Char) (i : Int) :
    i ∈ ssmap_find_node_by_names m n1 (some n2) ↔
      (0 ≤ i ∧ i < (m.nodes.length : Int) ∧
        ∃ w1 ∈ (getNode m i).ways, strContains w1.name n1 = true ∧
          ∃ w2 ∈ (getNode m i).ways, strContains w2.name n2 = true ∧ w1.id ≠ w2.id) := by
  simp only [ssmap_find_node_by_names, List.mem_map, List.mem_filter, List.mem_range]
  constructor
  · rintro ⟨k, ⟨hk, hmatch⟩, rfl⟩
    have hnode : m.nodes.getD k default ∈ m.nodes := by
      rw [List.getD_eq_getElem _ _ hk]
      exact List.getElem_mem hk
    refine ⟨by omega, by omega, ?_⟩
    simp only [nodeMatchesTwo, List.any_eq_true, Bool.and_eq_true, beq_iff_eq,
      Bool.not_eq_true', beq_eq_false_iff_ne] at hmatch
    obtain ⟨w1, hw1, a, ha, hid1, w2, hw2, b, hb, hid2, hab⟩ := hmatch
    have hg : getNode m ((k : Nat) : Int) = m.nodes.getD k default := by
      simp [getNode]
    rw [hg]
    have hc1 : strContains w1.name n1 = true :=
      (wf_way_name_match m hwf _ hnode w1 hw1 n1).mp ⟨a, ha, hid1⟩
    have hc2 : strContains w2.name n2 = true :=
      (wf_way_name_match m hwf _ hnode w2 hw2 n2).mp ⟨b, hb, hid2⟩
    exact ⟨w1, hw1, hc1, w2, hw2, hc2, by rw [hid1, hid2]; exact hab⟩
  · rintro ⟨h0, hlt, w1, hw1, hc1, w2, hw2, hc2, hne⟩
    refine ⟨i.toNat, ⟨by omega, ?_⟩, by omega⟩
    have hg : getNode m i = m.nodes.getD i.toNat default := rfl
    have hitn : i.toNat < m.nodes.length := by omega
    have hnode : m.nodes.getD i.toNat default ∈ m.nodes := by
      rw [List.getD_eq_getElem _ _ hitn]
      exact List.getElem_mem hitn
    rw [hg] at hw1 hw2
    obtain ⟨a, ha, haid⟩ := (wf_way_name_match m hwf _ hnode w1 hw1 n1).mpr hc1
    obtain ⟨b, hb, hbid⟩ := (wf_way_name_match m hwf _ hnode w2 hw2 n2).mpr hc2
    simp only [nodeMatchesTwo, List.any_eq_true, Bool.and_eq_true, beq_iff_eq,
      Bool.not_eq_true', beq_eq_false_iff_ne]
    exact ⟨w1, hw1, a, ha, haid, w2, hw2, b, hb, hbid, by rw [← haid, ← hbid]; exact hne⟩

/-- Witness for C7 on the spec §8 scenario map: node 1 touches Main (way 0)
and Oak (way 2), which are distinct, so the search for "Main" and "Oak"
prints node 1. -/
theorem claim_C7_two_name_distinct_witness :
    wfB mapS = true ∧
    ((1 : Int) ∈ ssmap_find_node_by_names mapS
      ['M', 'a', 'i', 'n'] (some ['O', 'a', 'k'])) :=
  ⟨by decide,
   (claim_C7_two_name_distinct mapS (by unfold WF; decide)
     ['M', 'a', 'i', 'n'] ['O', 'a', 'k'] 1).mpr (by decide)⟩

/-- A successful `find?` locates the first element satisfying the predicate:
it is in the list, satisfies the predicate, and everything before it does
not. -/
theorem find?_first {α : Type} [Inhabited α] (p : α → Bool) :
    ∀ (l : List α) (a : α), l.find? p = some a →
      ∃ i, i < l.length ∧ l.getD i default = a ∧ p a = true ∧
        ∀ j < i, p (l.getD j default) = false := by
  intro l
  induction l with
  | nil => intro a h; simp at h
  | cons x t ih =>
    intro a h
    rw [List.find?_cons] at h
    cases hx : p x with
    | true =>
      simp only [hx] at h
      obtain rfl : x = a := by injection h
      exact ⟨0, Nat.succ_pos _, rfl, hx, by omega⟩
    | false =>
      simp only [hx] at h
      obtain ⟨i, hi, hget, hpa, hbefore⟩ := ih a h
      refine ⟨i + 1, by simpa using Nat.succ_lt_succ hi, by simpa using hget, hpa, ?_⟩
      intro j hj
      cases j with
      | zero => simpa using hx
      | succ j' => simpa using hbefore j' (by omega)


/-- Validation pass 1 scan succeeds exactly when every id exists. -/
theorem pass1_none_iff (m : SSMap) (ids : List Int) :
    ids.find? (fun id => !(nodeOk m id)) = none ↔ Pass1 m ids := by
  rw [List.find?_eq_none]
  simp [Pass1]

/-- Validation pass 2 scan succeeds exactly when no id repeats. -/
theorem pass2_none_iff (ids : List Int) :
    ids.find? (fun id => decide (1 < ids.count id)) = none ↔ Pass2 ids := by
  rw [List.find?_eq_none]
  simp only [decide_eq_true_eq, Pass2, List.nodup_iff_count_le_one]
  constructor
  · intro h a
    by_cases ha : a ∈ ids
    · have := h a ha; omega
    · rw [List.count_eq_zero_of_not_mem ha]; omega
  · intro h x hx
    have := h x; omega

/-- Validation pass 3 scan succeeds exactly when every adjacent pair shares a
way. -/
theorem pass3_none_iff (m : SSMap) (ids : List Int) :
    (adjPairs ids).find? (fun p => !(sharesWay (getNode m p.1) (getNode m p.2))) = none ↔
      Pass3 m ids := by
  rw [List.find?_eq_none]
  simp [Pass3]

/-- Validation pass 4 scan succeeds exactly when every adjacent pair is
directly adjacent inside a shared way. -/
theorem pass4_none_iff (m : SSMap) (ids : List Int) :
    (adjPairs ids).find? (fun p => !(pass4Ok m p.1 p.2)) = none ↔ Pass4 m ids := by
  rw [List.find?_eq_none]
  simp [Pass4]

/-- Validation pass 5 scan succeeds exactly when every adjacent pair is a
legal direct step. -/
theorem pass5_none_iff (m : SSMap) (ids : List Int) :
    (adjPairs ids).find? (fun p => !(pass5Ok m p.1 p.2)) = none ↔ Pass5 m ids := by
  rw [List.find?_eq_none]
  simp [Pass5]

/-- Shape analysis of the validator: either all five scans succeed and no
message is printed, or the outcome is exactly the error of the FIRST failing
scan with the sentinel `-1`. -/
theorem tt_shape (m : SSMap) (d : Int → Int → ℚ) (ids : List Int) :
    (ids.find? (fun id => !(nodeOk m id)) = none ∧
     ids.find? (fun id => decide (1 < ids.count id)) = none ∧
     (adjPairs ids).find? (fun p => !(sharesWay (getNode m p.1) (getNode m p.2))) = none ∧
     (adjPairs ids).find? (fun p => !(pass4Ok m p.1 p.2)) = none ∧
     (adjPairs ids).find? (fun p => !(pass5Ok m p.1 p.2)) = none ∧
     (ssmap_path_travel_time m d ids).msg = none) ∨
    (∃ x, ids.find? (fun id => !(nodeOk m id)) = some x ∧
      ssmap_path_travel_time m d ids = ⟨some (.nodeNotExist x), -1⟩) ∨
    (∃ x, ids.find? (fun id => !(nodeOk m id)) = none ∧
      ids.find? (fun id => decide (1 < ids.count id)) = some x ∧
      ssmap_path_travel_time m d ids = ⟨some (.nodeRepeated x), -1⟩) ∨
    (∃ p, ids.find? (fun id => !(nodeOk m id)) = none ∧
      ids.find? (fun id => decide (1 < ids.count id)) = none ∧
      (adjPairs ids).find? (fun p => !(sharesWay (getNode m p.1) (getNode m p.2))) = some p ∧
      ssmap_path_travel_time m d ids = ⟨some (.noRoads p.1 p.2), -1⟩) ∨
    (∃ p, ids.find? (fun id => !(nodeOk m id)) = none ∧
      ids.find? (fun id => decide (1 < ids.count id)) = none ∧
      (adjPairs ids).find? (fun p => !(sharesWay (getNode m p.1) (getNode m p.2))) = none ∧
      (adjPairs ids).find? (fun p => !(pass4Ok m p.1 p.2)) = some p ∧
      ssmap_path_travel_time m d ids = ⟨some (.notDirect p.1 p.2), -1⟩) ∨
    (∃ p, ids.find? (fun id => !(nodeOk m id)) = none ∧
      ids.find? (fun id => decide (1 < ids.count id)) = none ∧
      (adjPairs ids).find? (fun p => !(sharesWay (getNode m p.1) (getNode m p.2))) = none ∧
      (adjPairs ids).find? (fun p => !(pass4Ok m p.1 p.2)) = none ∧
      (adjPairs ids).find? (fun p => !(pass5Ok m p.1 p.2)) = some p ∧
      ssmap_path_travel_time m d ids = ⟨some (.goReverse p.1 p.2), -1⟩) := by
  unfold ssmap_path_travel_time
  cases h1 : ids.find? (fun id => !(nodeOk m id)) with
  | some x => exact Or.inr (Or.inl ⟨x, rfl, rfl⟩)
  | none =>
  cases h2 : ids.find? (fun id => decide (1 < ids.count id)) with
  | some x => exact Or.inr (Or.inr (Or.inl ⟨x, rfl, rfl, rfl⟩))
  | none =>
  cases h3 : (adjPairs ids).find? (fun p => !(sharesWay (getNode m p.1) (getNode m p.2))) with
  | some p => exact Or.inr (Or.inr (Or.inr (Or.inl ⟨p, rfl, rfl, rfl, rfl⟩)))
  | none =>
  cases h4 : (adjPairs ids).find? (fun p => !(pass4Ok m p.1 p.2)) with
  | some p => exact Or.inr (Or.inr (Or.inr (Or.inr (Or.inl ⟨p, rfl, rfl, rfl, rfl, rfl⟩))))
  | none =>
  cases h5 : (adjPairs ids).find? (fun p => !(pass5Ok m p.1 p.2)) with
  | some p =>
    exact Or.inr (Or.inr (Or.inr (Or.inr (Or.inr ⟨p, rfl, rfl, rfl, rfl, rfl, rfl⟩))))
  | none => exact Or.inl ⟨rfl, rfl, rfl, rfl, rfl, rfl⟩

/-- Claim C4: the validator runs its passes in source order — existence,
uniqueness, co-membership, direct adjacency, directionality — short-circuits
at the first offending condition, prints exactly that one error line of §7
(here the `TTErr` value, rendered by `TTErr.render`), and returns the
sentinel `-1.0`; an error of a later pass is only ever reported with all
earlier passes clean, and no message is printed iff all five passes hold. -/
theorem claim_C4_ordered_short_circuit (m : SSMap) (d : Int → Int → ℚ) (ids : List Int) :
    (((ssmap_path_travel_time m d ids).msg = none) ↔
      (Pass1 m ids ∧ Pass2 ids ∧ Pass3 m ids ∧ Pass4 m ids ∧ Pass5 m ids)) ∧
    (∀ e, (ssmap_path_travel_time m d ids).msg = some e →
      (ssmap_path_travel_time m d ids).ret = -1) ∧
    (∀ x, (ssmap_path_travel_time m d ids).msg = some (TTErr.nodeNotExist x) →
      nodeOk m x = false ∧
      ∃ i, i < ids.length ∧ ids.getD i 0 = x ∧ ∀ j < i, nodeOk m (ids.getD j 0) = true) ∧
    (∀ x, (ssmap_path_travel_time m d ids).msg = some (TTErr.nodeRepeated x) →
      Pass1 m ids ∧ x ∈ ids ∧ 1 < ids.count x) ∧
    (∀ u v, (ssmap_path_travel_time m d ids).msg = some (TTErr.noRoads u v) →
      Pass1 m ids ∧ Pass2 ids ∧ (u, v) ∈ adjPairs ids ∧
      sharesWay (getNode m u) (getNode m v) = false) ∧
    (∀ u v, (ssmap_path_travel_time m d ids).msg = some (TTErr.notDirect u v) →
      Pass1 m ids ∧ Pass2 ids ∧ Pass3 m ids ∧ (u, v) ∈ adjPairs ids ∧
      pass4Ok m u v = false) ∧
    (∀ u v, (ssmap_path_travel_time m d ids).msg = some (TTErr.goReverse u v) →
      Pass1 m ids ∧ Pass2 ids ∧ Pass3 m ids ∧ Pass4 m ids ∧ (u, v) ∈ adjPairs ids ∧
      pass5Ok m u v = false) := by
  rcases tt_shape m d ids with
    ⟨f1, f2, f3, f4, f5, hmsg⟩ | ⟨x, hf, htt⟩ | ⟨x, hf1, hf, htt⟩ |
    ⟨p, hf1, hf2, hf, htt⟩ | ⟨p, hf1, hf2, hf3, hf, htt⟩ | ⟨p, hf1, hf2, hf3, hf4, hf, htt⟩
  · refine ⟨?_, ?_, ?_, ?_, ?_, ?_, ?_⟩
    · exact iff_of_true hmsg ⟨(pass1_none_iff m ids).mp f1, (pass2_none_iff ids).mp f2,
        (pass3_none_iff m ids).mp f3, (pass4_none_iff m ids).mp f4,
        (pass5_none_iff m ids).mp f5⟩
    · intro e he; rw [hmsg] at he; exact Option.noConfusion he
    · intro x hx; rw [hmsg] at hx; exact Option.noConfusion hx
    · intro x hx; rw [hmsg] at hx; exact Option.noConfusion hx
    · intro u v h; rw [hmsg] at h; exact Option.noConfusion h
    · intro u v h; rw [hmsg] at h; exact Option.noConfusion h
    · intro u v h; rw [hmsg] at h; exact Option.noConfusion h
  · rw [htt]
    refine ⟨?_, fun e _ => rfl, ?_, ?_, ?_, ?_, ?_⟩
    · refine iff_of_false (by simp) ?_
      rintro ⟨hP1, -⟩
      rw [(pass1_none_iff m ids).mpr hP1] at hf
      exact Option.noConfusion hf
    · intro x' hx'
      simp only [Option.some.injEq] at hx'
      obtain rfl : x = x' := by simpa using hx'
      obtain ⟨i, hi, hget, hpx, hbef⟩ := find?_first _ ids x hf
      refine ⟨by simpa using hpx, i, hi, hget, fun j hj => by simpa using hbef j hj⟩
    · intro x' hx'; simp at hx'
    · intro u v h; simp at h
    · intro u v h; simp at h
    · intro u v h; simp at h
  · rw [htt]
    have hP1 := (pass1_none_iff m ids).mp hf1
    refine ⟨?_, fun e _ => rfl, ?_, ?_, ?_, ?_, ?_⟩
    · refine iff_of_false (by simp) ?_
      rintro ⟨-, hP2, -⟩
      rw [(pass2_none_iff ids).mpr hP2] at hf
      exact Option.noConfusion hf
    · intro x' hx'; simp at hx'
    · intro x' hx'
      simp only [Option.some.injEq] at hx'
      obtain rfl : x = x' := by simpa using hx'
      have hmem := List.mem_of_find?_eq_some hf
      have hcnt : 1 < ids.count x := by
        have := List.find?_some hf; simpa using this
      exact ⟨hP1, hmem, hcnt⟩
    · intro u v h; simp at h
    · intro u v h; simp at h
    · intro u v h; simp at h
  · rw [htt]
    obtain ⟨pu, pv⟩ := p
    have hP1 := (pass1_none_iff m ids).mp hf1
    have hP2 := (pass2_none_iff ids).mp hf2
    refine ⟨?_, fun e _ => rfl, ?_, ?_, ?_, ?_, ?_⟩
    · refine iff_of_false (by simp) ?_
      rintro ⟨-, -, hP3, -⟩
      rw [(pass3_none_iff m ids).mpr hP3] at hf
      exact Option.noConfusion hf
    · intro x' hx'; simp at hx'
    · intro x' hx'; simp at hx'
    · intro u v huv
      simp only [Option.some.injEq] at huv
      obtain ⟨rfl, rfl⟩ : pu = u ∧ pv = v := by injection huv with h1 h2; exact ⟨h1, h2⟩
      have hmem := List.mem_of_find?_eq_some hf
      have hshare : sharesWay (getNode m pu) (getNode m pv) = false := by
        have := List.find?_some hf; simpa using this
      exact ⟨hP1, hP2, hmem, hshare⟩
    · intro u v h; simp at h
    · intro u v h; simp at h
  · rw [htt]
    obtain ⟨pu, pv⟩ := p
    have hP1 := (pass1_none_iff m ids).mp hf1
    have hP2 := (pass2_none_iff ids).mp hf2
    have hP3 := (pass3_none_iff m ids).mp hf3
    refine ⟨?_, fun e _ => rfl, ?_, ?_, ?_, ?_, ?_⟩
    · refine iff_of_false (by simp) ?_
      rintro ⟨-, -, -, hP4, -⟩
      rw [(pass4_none_iff m ids).mpr hP4] at hf
      exact Option.noConfusion hf
    · intro x' hx'; simp at hx'
    · intro x' hx'; simp at hx'
    · intro u v h; simp at h
    · intro u v huv
      simp only [Option.some.injEq] at huv
      obtain ⟨rfl, rfl⟩ : pu = u ∧ pv = v := by injection huv with h1 h2; exact ⟨h1, h2⟩
      have hmem := List.mem_of_find?_eq_some hf
      have hp4 : pass4Ok m pu pv = false := by
        have := List.find?_some hf; simpa using this
      exact ⟨hP1, hP2, hP3, hmem, hp4⟩
    · intro u v h; simp at h
  · rw [htt]
    obtain ⟨pu, pv⟩ := p
    have hP1 := (pass1_none_iff m ids).mp hf1
    have hP2 := (pass2_none_iff ids).mp hf2
    have hP3 := (pass3_none_iff m ids).mp hf3
    have hP4 := (pass4_none_iff m ids).mp hf4
    refine ⟨?_, fun e _ => rfl, ?_, ?_, ?_, ?_, ?_⟩
    · refine iff_of_false (by simp) ?_
      rintro ⟨-, -, -, -, hP5⟩
      rw [(pass5_none_iff m ids).mpr hP5] at hf
      exact Option.noConfusion hf
    · intro x' hx'; simp at hx'
    · intro x' hx'; simp at hx'
    · intro u v h; simp at h
    · intro u v h; simp at h
    · intro u v huv
      simp only [Option.some.injEq] at huv
      obtain ⟨rfl, rfl⟩ : pu = u ∧ pv = v := by injection huv with h1 h2; exact ⟨h1, h2⟩
      have hmem := List.mem_of_find?_eq_some hf
      have hp5 : pass5Ok m pu pv = false := by
        have := List.find?_some hf; simpa using this
      exact ⟨hP1, hP2, hP3, hP4, hmem, hp5⟩

/-- Witness for C4 at the §8 scenario: `[0, 1, 0]` fails pass 2 on node 0
with passes before it clean. -/
theorem claim_C4_ordered_short_circuit_witness :
    Pass1 mapS [0, 1, 0] ∧ (0 : Int) ∈ [(0 : Int), 1, 0] ∧
      1 < [(0 : Int), 1, 0].count 0 :=
  (claim_C4_ordered_short_circuit mapS dOne [0, 1, 0]).2.2.2.1 0 (by decide)

/-- Moving the `k`-th element of a list to the front while writing `a` into
its old slot is a permutation of putting `a` in front. -/
theorem getD_cons_set_perm :
    ∀ (t : List HeapNode) (k : Nat) (a : HeapNode), k < t.length →
      List.Perm (t.getD k default :: t.set k a) (a :: t) := by
  intro t
  induction t with
  | nil => intro k a hk; simp at hk
  | cons b t' ih =>
    intro k a hk
    cases k with
    | zero => simpa using List.Perm.swap a b t'
    | succ k' =>
      have hk' : k' < t'.length := by simpa using hk
      simp only [List.getD_cons_succ, List.set_cons_succ]
      have p1 : List.Perm (t'.getD k' default :: b :: t'.set k' a)
          (b :: t'.getD k' default :: t'.set k' a) := List.Perm.swap b _ _
      have p2 : List.Perm (b :: t'.getD k' default :: t'.set k' a) (b :: a :: t') :=
        (ih k' a hk').cons b
      have p3 : List.Perm (b :: a :: t') (a :: b :: t') := List.Perm.swap a b t'
      exact (p1.trans p2).trans p3

/-- The C pointer swap permutes the element array. -/
theorem swap_heap_node_perm :
    ∀ (l : List HeapNode) (i j : Nat), i < l.length → j < l.length →
      List.Perm (swap_heap_node l i j) l := by
  intro l
  induction l with
  | nil => intro i j hi; simp at hi
  | cons a t ih =>
    intro i j hi hj
    cases i with
    | zero =>
      cases j with
      | zero => simp [swap_heap_node]
      | succ j' =>
        have hj' : j' < t.length := by simpa using hj
        simpa [swap_heap_node] using getD_cons_set_perm t j' a hj'
    | succ i' =>
      have hi' : i' < t.length := by simpa using hi
      cases j with
      | zero =>
        simp only [swap_heap_node, List.getD_cons_succ, List.getD_cons_zero,
          List.set_cons_succ, List.set_cons_zero]
        exact getD_cons_set_perm t i' a hi'
      | succ j' =>
        have hj' : j' < t.length := by simpa using hj
        simpa [swap_heap_node] using (ih i' j' hi' hj').cons a

/-- Swapping preserves the array length. -/
theorem swap_heap_node_length (l : List HeapNode) (i j : Nat) :
    (swap_heap_node l i j).length = l.length := by
  simp [swap_heap_node]

/-- The heapify target is the current index or an in-bounds child index. -/
theorem heapifyTarget_bound (l : List HeapNode) (idx : Nat) :
    heapifyTarget l idx = idx ∨ (heapifyTarget l idx < l.length ∧ idx < l.length) := by
  unfold heapifyTarget
  dsimp only
  by_cases c1 : 2 * idx + 1 < l.length ∧
      (l.getD (2 * idx + 1) default).distance < (l.getD idx default).distance
  · rw [if_pos c1]
    have h1 := c1.1
    by_cases c2 : 2 * idx + 2 < l.length ∧
        (l.getD (2 * idx + 2) default).distance < (l.getD (2 * idx + 1) default).distance
    · rw [if_pos c2]
      exact Or.inr ⟨c2.1, by omega⟩
    · rw [if_neg c2]
      exact Or.inr ⟨h1, by omega⟩
  · rw [if_neg c1]
    by_cases c2 : 2 * idx + 2 < l.length ∧
        (l.getD (2 * idx + 2) default).distance < (l.getD idx default).distance
    · rw [if_pos c2]
      exact Or.inr ⟨c2.1, by omega⟩
    · rw [if_neg c2]
      exact Or.inl rfl

/-- `min_heapify` permutes the element array. -/
theorem min_heapify_perm :
    ∀ (fuel : Nat) (l : List HeapNode) (idx : Nat),
      List.Perm (min_heapify fuel l idx) l := by
  intro fuel
  induction fuel with
  | zero => intro l idx; exact List.Perm.refl _
  | succ f ih =>
    intro l idx
    rw [min_heapify]
    rcases heapifyTarget_bound l idx with heq | ⟨hs2, hidx⟩
    · rw [heq]
      simp
    · by_cases hne : heapifyTarget l idx ≠ idx
      · rw [if_pos hne]
        exact (ih _ _).trans (swap_heap_node_perm l idx _ hidx hs2)
      · rw [if_neg hne]

/-- The sift-up loop permutes the element array when started in bounds. -/
theorem sift_up_perm :
    ∀ (fuel : Nat) (l : List HeapNode) (i : Nat), i < l.length →
      List.Perm (sift_up fuel l i) l := by
  intro fuel
  induction fuel with
  | zero => intro l i _; exact List.Perm.refl _
  | succ f ih =>
    intro l i hi
    rw [sift_up]
    by_cases hc : i ≠ 0 ∧ (l.getD ((i - 1) / 2) default).distance > (l.getD i default).distance
    · rw [if_pos hc]
      have hpar : (i - 1) / 2 < l.length := by omega
      have hlen : (swap_heap_node l i ((i - 1) / 2)).length = l.length :=
        swap_heap_node_length l i ((i - 1) / 2)
      exact (ih _ _ (by omega)).trans (swap_heap_node_perm l i _ hi hpar)
    · rw [if_neg hc]

/-- The decrease-key scan finds an element with the sought id, in bounds. -/
theorem scan_heap_idx_spec (v : Int) :
    ∀ (l : List HeapNode) (k i : Nat), scan_heap_idx v k l = some i →
      k ≤ i ∧ i - k < l.length ∧ (l.getD (i - k) default).node_id = v := by
  intro l
  induction l with
  | nil => intro k i h; simp [scan_heap_idx] at h
  | cons e t ih =>
    intro k i h
    rw [scan_heap_idx] at h
    by_cases he : e.node_id == v
    · rw [if_pos he] at h
      obtain rfl : k = i := by injection h
      exact ⟨le_refl _, by simp, by simpa using he⟩
    · rw [if_neg he] at h
      obtain ⟨hk, hlt, hid⟩ := ih (k + 1) i h
      have hik : i - k = (i - (k + 1)) + 1 := by omega
      refine ⟨by omega, by simpa [hik] using Nat.succ_lt_succ hlt, ?_⟩
      rw [hik]
      simpa using hid

/-- Writing back the element it found at its own position keeps the id map
of the array unchanged. -/
theorem set_id_map_eq (v : Int) (q : ℚ) :
    ∀ (l : List HeapNode) (i : Nat), i < l.length → (l.getD i default).node_id = v →
      (l.set i ⟨v, q⟩).map HeapNode.node_id = l.map HeapNode.node_id := by
  intro l
  induction l with
  | nil => intro i hi; simp at hi
  | cons e t ih =>
    intro i hi hv
    cases i with
    | zero =>
      simp only [List.getD_cons_zero] at hv
      simp [hv]
    | succ i' =>
      have hi' : i' < t.length := by simpa using hi
      simp only [List.getD_cons_succ] at hv
      simp only [List.set_cons_succ, List.map_cons]
      rw [ih i' hi' hv]

/-- `decrease_key` leaves the multiset of queued ids unchanged. -/
theorem decrease_key_ids (h : MinHeap) (v : Int) (q : ℚ) :
    List.Perm (heapIds (decrease_key h v q)) (heapIds h) := by
  unfold decrease_key
  cases hscan : scan_heap_idx v 0 h.elements with
  | none => exact List.Perm.refl _
  | some i =>
    obtain ⟨-, hlt, hid⟩ := scan_heap_idx_spec v h.elements 0 i hscan
    simp only [Nat.sub_zero] at hlt hid
    have hsetlen : (h.elements.set i ⟨v, q⟩).length = h.elements.length := by simp
    have hperm : List.Perm (sift_up (i + 1) (h.elements.set i ⟨v, q⟩) i)
        (h.elements.set i ⟨v, q⟩) := sift_up_perm _ _ _ (by omega)
    unfold heapIds
    refine (hperm.map HeapNode.node_id).trans ?_
    rw [set_id_map_eq v q h.elements i hlt hid]

/-- `insert_min_heap` either appends the new id (up to permutation) or, at
capacity, changes nothing. -/
theorem insert_min_heap_ids (h : MinHeap) (v : Int) (q : ℚ) :
    (h.elements.length ≠ h.capacity ∧
      List.Perm (heapIds (insert_min_heap h v q)) (heapIds h ++ [v])) ∨
    (h.elements.length = h.capacity ∧ insert_min_heap h v q = h) := by
  unfold insert_min_heap
  by_cases hful : h.elements.length = h.capacity
  · rw [if_pos hful]; exact Or.inr ⟨hful, rfl⟩
  · rw [if_neg hful]
    refine Or.inl ⟨hful, ?_⟩
    have hlen : (h.elements ++ [(⟨v, q⟩ : HeapNode)]).length = h.elements.length + 1 := by
      simp
    have hperm : List.Perm
        (sift_up (h.elements ++ [(⟨v, q⟩ : HeapNode)]).length
          (h.elements ++ [⟨v, q⟩]) ((h.elements ++ [(⟨v, q⟩ : HeapNode)]).length - 1))
        (h.elements ++ [⟨v, q⟩]) := sift_up_perm _ _ _ (by simp)
    unfold heapIds
    refine (hperm.map HeapNode.node_id).trans ?_
    simp

/-- `extract_min` on a nonempty queue returns the root and removes exactly
it: the remaining elements are a permutation of the old tail, and the
capacity is untouched. -/
theorem extract_min_spec (h : MinHeap) (root : HeapNode) (rest : List HeapNode)
    (he : h.elements = root :: rest) :
    (extract_min h).1 = root ∧
    List.Perm (extract_min h).2.elements rest ∧
    (extract_min h).2.capacity = h.capacity := by
  unfold extract_min
  rw [he]
  dsimp only
  by_cases hr : rest = []
  · subst hr
    simp
  · rw [dif_neg hr]
    refine ⟨rfl, ?_, rfl⟩
    refine (min_heapify_perm _ _ _).trans ?_
    have hsplit : rest.dropLast ++ [rest.getLast hr] = rest := List.dropLast_append_getLast hr
    have hp : List.Perm (rest.getLast hr :: rest.dropLast)
        (rest.dropLast ++ [rest.getLast hr]) := (List.perm_append_singleton _ _).symm
    rw [hsplit] at hp
    exact hp

/-- A `==`-scan over a list of ids is exactly a membership test. -/
theorem any_beq_true_iff (l : List Int) (a : Int) :
    (l.any (fun y => y == a)) = true ↔ a ∈ l := by
  simp only [List.any_eq_true, beq_iff_eq]
  exact ⟨fun ⟨y, hy, h⟩ => h ▸ hy, fun h => ⟨a, h, rfl⟩⟩

/-- Id-membership in the queue is what `is_in_min_heap` computes. -/
theorem is_in_min_heap_iff (h : MinHeap) (v : Int) :
    is_in_min_heap h v = true ↔ v ∈ heapIds h := by
  unfold is_in_min_heap heapIds
  simp only [List.any_eq_true, beq_iff_eq, List.mem_map]

/-- Removing one element that fails the filter drops the filtered length by
exactly one: with the element present, failing `q` but passing `p`, and
everything else agreeing, the `q`-filter is one shorter than the `p`-filter. -/
theorem filter_length_succ (p q : Nat → Bool) :
    ∀ (l : List Nat), l.Nodup → ∀ v ∈ l, p v = true → q v = false →
      (∀ x ∈ l, x ≠ v → q x = p x) →
      (l.filter q).length + 1 = (l.filter p).length := by
  intro l
  induction l with
  | nil => intro _ v hv; simp at hv
  | cons x t ih =>
    intro hnd v hv hp hq hsame
    have hndt : t.Nodup := (List.nodup_cons.mp hnd).2
    have hxnt : x ∉ t := (List.nodup_cons.mp hnd).1
    rcases List.mem_cons.mp hv with rfl | hvt
    · have hqt : ∀ y ∈ t, q y = p y := by
        intro y hy
        exact hsame y (List.mem_cons_of_mem _ hy) (fun hyx => hxnt (hyx ▸ hy))
      rw [List.filter_cons, List.filter_cons, hp, hq, if_pos rfl,
        if_neg Bool.false_ne_true, List.filter_congr hqt]
      simp
    · have hxv : x ≠ v := fun hxv => hxnt (hxv ▸ hvt)
      have hx : q x = p x := hsame x (List.mem_cons_self x t) hxv
      have hrec := ih hndt v hvt hp hq
        (fun y hy hyv => hsame y (List.mem_cons_of_mem _ hy) hyv)
      rw [List.filter_cons, List.filter_cons, hx]
      cases hpx : p x with
      | true =>
        rw [if_pos rfl, if_pos rfl]
        simp only [List.length_cons]
        omega
      | false =>
        rw [if_neg Bool.false_ne_true, if_neg Bool.false_ne_true]
        exact hrec

/-- A filter misses at least the elements that fail it. -/
theorem filter_length_le_pred (p : Nat → Bool) :
    ∀ (l : List Nat) (v : Nat), v ∈ l → p v = false →
      (l.filter p).length + 1 ≤ l.length := by
  intro l
  induction l with
  | nil => intro v hv; simp at hv
  | cons x t ih =>
    intro v hv hp
    rcases List.mem_cons.mp hv with rfl | hvt
    · rw [List.filter_cons, hp, if_neg Bool.false_ne_true]
      have := List.length_filter_le p t
      simp only [List.length_cons]
      omega
    · rw [List.filter_cons]
      have hrec := ih v hvt hp
      cases hpx : p x with
      | true =>
        rw [if_pos rfl]
        simp only [List.length_cons]
        omega
      | false =>
        rw [if_neg Bool.false_ne_true]
        simp only [List.length_cons]
        omega

/-- Two consecutive entries of a list form an adjacent pair. -/
theorem adjPairs_getD_mem (l : List Int) (k : Nat) (hk : k + 1 < l.length) :
    (l.getD k 0, l.getD (k + 1) 0) ∈ adjPairs l := by
  unfold adjPairs
  have hkz : k < (l.zip l.tail).length := by
    simp only [List.length_zip, List.length_tail]
    omega
  have hk0 : k < l.length := by omega
  have hkt : k < l.tail.length := by simp [List.length_tail]; omega
  have hval : (l.zip l.tail)[k] = (l[k], l.tail[k]) := List.getElem_zip
  have htail : l.tail[k] = l[k + 1] := List.getElem_tail l k hkt
  have hmem : (l.zip l.tail)[k] ∈ l.zip l.tail := List.getElem_mem hkz
  rw [hval, htail] at hmem
  rw [List.getD_eq_getElem l 0 hk0, List.getD_eq_getElem l 0 hk]
  exact hmem

/-- A forward consecutive pair is always a legal step (also on one-way
ways). -/
theorem stepOk_forward (w : Way) (k : Nat) (hk : k + 1 < w.node_ids.length) :
    stepOk w (w.node_ids.getD k 0) (w.node_ids.getD (k + 1) 0) = true := by
  unfold stepOk
  rw [List.any_eq_true]
  refine ⟨(w.node_ids.getD k 0, w.node_ids.getD (k + 1) 0), adjPairs_getD_mem _ k hk, ?_⟩
  cases w.one_way <;> simp

/-- A backward consecutive pair is a legal step on a two-way way. -/
theorem stepOk_backward (w : Way) (k : Nat) (hk : k + 1 < w.node_ids.length)
    (how : w.one_way = false) :
    stepOk w (w.node_ids.getD (k + 1) 0) (w.node_ids.getD k 0) = true := by
  unfold stepOk
  rw [List.any_eq_true]
  refine ⟨(w.node_ids.getD k 0, w.node_ids.getD (k + 1) 0), adjPairs_getD_mem _ k hk, ?_⟩
  rw [how]
  simp

/-- Every candidate the router generates from a way attached to node `u` of a
well-formed map is a legal direct step away from `u`, and is an in-range node
id. -/
theorem wayNeighbors_step (m : SSMap) (hwf : WF m) (u : Int)
    (hu0 : 0 ≤ u) (hun : u < (m.nodes.length : Int))
    (w : Way) (hw : w ∈ (getNode m u).ways) (v : Int) (hv : v ∈ wayNeighbors w u) :
    (0 ≤ v ∧ v < (m.nodes.length : Int)) ∧ stepRel m u v := by
  obtain ⟨hnid, -, hnw, hwv⟩ := wf_parts m hwf
  have hutn : u.toNat < m.nodes.length := by omega
  have hnode_mem : getNode m u ∈ m.nodes := by
    unfold getNode
    rw [List.getD_eq_getElem _ _ hutn]
    exact List.getElem_mem hutn
  have hid : (getNode m u).id = u := by
    have := hnid u.toNat hutn
    unfold getNode
    rw [this]
    omega
  obtain ⟨hw0, hwlt, hgw, humem⟩ := hnw (getNode m u) hnode_mem w hw
  rw [hid] at humem
  have hwmem : w ∈ m.ways := by
    have hwtn : w.id.toNat < m.ways.length := by omega
    rw [← hgw]
    unfold getWay
    rw [List.getD_eq_getElem _ _ hwtn]
    exact List.getElem_mem hwtn
  rcases findIdxFrom_spec u w.node_ids 0 with ⟨-, habs⟩ | ⟨j, hj1, hj2, hj3, -⟩
  · exact absurd rfl (habs u humem)
  · simp only [Nat.zero_add] at hj1
    have hfind : find_node_index_in_way w u = (j : Int) := by
      unfold find_node_index_in_way
      exact hj1
    rw [wayNeighbors_eq w u j hj2 hfind] at hv
    unfold neighborsAt at hv
    rw [List.mem_append] at hv
    have hrange : ∀ k, k < w.node_ids.length → 0 ≤ w.node_ids.getD k 0 ∧
        w.node_ids.getD k 0 < (m.nodes.length : Int) := by
      intro k hk
      refine hwv w hwmem _ ?_
      rw [List.getD_eq_getElem _ _ hk]
      exact List.getElem_mem hk
    have hstepany : ∀ x, stepOk w u x = true → stepRel m u x := by
      intro x hx
      unfold stepRel anyStep
      rw [List.any_eq_true]
      exact ⟨w, hwmem, hx⟩
    rcases hv with hv | hv
    · by_cases hcond : ¬w.one_way ∧ 0 < j
      · rw [if_pos hcond] at hv
        simp only [List.mem_singleton] at hv
        subst hv
        have hk : (j - 1) + 1 < w.node_ids.length := by omega
        have hj1e : (j - 1) + 1 = j := by omega
        have hback := stepOk_backward w (j - 1) hk (by
          rcases hcond with ⟨hno, -⟩
          cases how : w.one_way
          · rfl
          · exact absurd how hno)
        rw [hj1e, hj3] at hback
        exact ⟨hrange (j - 1) (by omega), hstepany _ hback⟩
      · rw [if_neg hcond] at hv
        simp at hv
    · by_cases hcond : j + 1 < w.node_ids.length
      · rw [if_pos hcond] at hv
        simp only [List.mem_singleton] at hv
        subst hv
        have hfwd := stepOk_forward w j hcond
        rw [hj3] at hfwd
        exact ⟨hrange (j + 1) hcond, hstepany _ hfwd⟩
      · rw [if_neg hcond] at hv
        simp at hv

/-- Permuted id lists give the same `==`-scan results. -/
theorem any_beq_congr_of_perm {l1 l2 : List Int} (h : List.Perm l1 l2) (a : Int) :
    (l1.any (fun y => y == a)) = (l2.any (fun y => y == a)) := by
  by_cases hm : a ∈ l2
  · rw [(any_beq_true_iff l1 a).mpr (h.mem_iff.mpr hm), (any_beq_true_iff l2 a).mpr hm]
  · have h1 : (l1.any (fun y => y == a)) = false := by
      cases hb : l1.any (fun y => y == a) with
      | false => rfl
      | true => exact absurd (h.mem_iff.mp ((any_beq_true_iff l1 a).mp hb)) hm
    have h2 : (l2.any (fun y => y == a)) = false := by
      cases hb : l2.any (fun y => y == a) with
      | false => rfl
      | true => exact absurd ((any_beq_true_iff l2 a).mp hb) hm
    rw [h1, h2]

/-- States with the same visited array and permuted queues have the same
measure. -/
theorem dMeasure_congr (m : SSMap) (st st' : DState)
    (hvis : st'.visited = st.visited)
    (hperm : List.Perm (heapIds st'.heap) (heapIds st.heap)) :
    dMeasure m st' = dMeasure m st := by
  unfold dMeasure
  have hlen : st'.heap.elements.length = st.heap.elements.length := by
    have := hperm.length_eq
    simpa [heapIds] using this
  rw [hlen, hvis]
  have hfil : (List.range m.nodes.length).filter (fun (v : Nat) =>
      !(st.visited (v : Int)) && !((heapIds st'.heap).any (fun x => x == (v : Int)))) =
      (List.range m.nodes.length).filter (fun (v : Nat) =>
      !(st.visited (v : Int)) && !((heapIds st.heap).any (fun x => x == (v : Int)))) := by
    apply List.filter_congr
    intro x _
    dsimp only
    rw [any_beq_congr_of_perm hperm]
  rw [hfil]

/-- Relaxing one candidate neighbor preserves the loop invariant, does not
increase the measure, and touches neither `visited` nor the break flag. -/
theorem relaxOne_spec (m : SSMap) (s : Int) (d : Int → Int → ℚ) (st : DState)
    (u : Int) (w : Way) (v : Int)
    (hInv : DInv m s st)
    (hvb : 0 ≤ v ∧ v < (m.nodes.length : Int))
    (hstep : stepRel m u v)
    (hreach : Reach m s u) :
    DInv m s (relaxOne d st u w v) ∧
    dMeasure m (relaxOne d st u w v) ≤ dMeasure m st ∧
    (relaxOne d st u w v).visited = st.visited ∧
    (relaxOne d st u w v).finished = st.finished := by
  obtain ⟨hnd, hmem, hpar⟩ := hInv
  have hreachv : Reach m s v := Relation.ReflTransGen.tail hreach hstep
  unfold relaxOne
  by_cases hvis : st.visited v = true
  · rw [if_pos hvis]
    exact ⟨⟨hnd, hmem, hpar⟩, le_refl _, rfl, rfl⟩
  · rw [if_neg hvis]
    have hvisf : st.visited v = false := by
      cases hb : st.visited v
      · rfl
      · exact absurd hb hvis
    cases hdu : st.dist u with
    | none => exact ⟨⟨hnd, hmem, hpar⟩, le_refl _, rfl, rfl⟩
    | some du =>
      dsimp only
      by_cases himp : ltDist (du + d u v / w.max_speed * 60) (st.dist v) = true
      · rw [if_pos himp]
        have hparnew : ∀ x, (updA st.parent v u) x ≠ -1 →
            stepRel m ((updA st.parent v u) x) x ∧ Reach m s x := by
          intro x hx
          unfold updA at hx ⊢
          by_cases hxv : x = v
          · rw [if_pos hxv] at hx ⊢
            exact hxv ▸ ⟨hstep, hreachv⟩
          · rw [if_neg hxv] at hx ⊢
            exact hpar x hx
        by_cases hin : is_in_min_heap st.heap v = true
        · rw [if_pos hin]
          have hperm := decrease_key_ids st.heap v (du + d u v / w.max_speed * 60)
          refine ⟨⟨(hperm.nodup_iff).mpr hnd, ?_, hparnew⟩, ?_, rfl, rfl⟩
          · intro x hx
            exact hmem x (hperm.mem_iff.mp hx)
          · exact le_of_eq (dMeasure_congr m st _ rfl hperm)
        · rw [if_neg hin]
          have hnotin : v ∉ heapIds st.heap := by
            intro hcontra
            exact hin ((is_in_min_heap_iff st.heap v).mpr hcontra)
          rcases insert_min_heap_ids st.heap v (du + d u v / w.max_speed * 60) with
            ⟨-, hperm⟩ | ⟨-, heq⟩
          · have hpermv : List.Perm
                (heapIds (insert_min_heap st.heap v (du + d u v / w.max_speed * 60)))
                (v :: heapIds st.heap) :=
              hperm.trans (List.perm_append_singleton v (heapIds st.heap))
            refine ⟨⟨?_, ?_, hparnew⟩, ?_, rfl, rfl⟩
            · rw [hpermv.nodup_iff, List.nodup_cons]
              exact ⟨hnotin, hnd⟩
            · intro x hx
              rcases List.mem_cons.mp (hpermv.mem_iff.mp hx) with rfl | hx'
              · exact ⟨hvb, hvisf, hreachv⟩
              · exact hmem x hx'
            · -- the queue grows by one while the unqueued-unvisited set shrinks by one
              unfold dMeasure
              dsimp only
              have hvcast : ((v.toNat : Nat) : Int) = v := by omega
              have hlen : (insert_min_heap st.heap v
                  (du + d u v / w.max_speed * 60)).elements.length =
                  st.heap.elements.length + 1 := by
                have h1 := hpermv.length_eq
                simp only [heapIds, List.length_map, List.length_cons] at h1
                exact h1
              have hcnt := filter_length_succ
                (fun k => !(st.visited (k : Int)) &&
                  !((heapIds st.heap).any (fun x => x == (k : Int))))
                (fun k => !(st.visited (k : Int)) &&
                  !((heapIds (insert_min_heap st.heap v
                    (du + d u v / w.max_speed * 60))).any (fun x => x == (k : Int))))
                (List.range m.nodes.length) (List.nodup_range _) v.toNat
                (by rw [List.mem_range]; omega)
                (by
                  dsimp only
                  rw [hvcast, hvisf]
                  have : ((heapIds st.heap).any (fun x => x == v)) = false := by
                    cases hb : (heapIds st.heap).any (fun x => x == v) with
                    | false => rfl
                    | true => exact absurd ((any_beq_true_iff _ _).mp hb) hnotin
                  rw [this]
                  rfl)
                (by
                  dsimp only
                  rw [hvcast]
                  have : ((heapIds (insert_min_heap st.heap v
                      (du + d u v / w.max_speed * 60))).any (fun x => x == v)) = true :=
                    (any_beq_true_iff _ _).mpr (hpermv.mem_iff.mpr (List.mem_cons_self v _))
                  rw [this]
                  simp)
                (by
                  intro x _ hxv
                  dsimp only
                  have hxne : ((x : Nat) : Int) ≠ v := by omega
                  have : ((heapIds (insert_min_heap st.heap v
                      (du + d u v / w.max_speed * 60))).any (fun x2 => x2 == (x : Int))) =
                      ((heapIds st.heap).any (fun x2 => x2 == (x : Int))) := by
                    by_cases hm : (x : Int) ∈ heapIds st.heap
                    · rw [(any_beq_true_iff _ _).mpr hm, (any_beq_true_iff _ _).mpr
                        (hpermv.mem_iff.mpr (List.mem_cons_of_mem v hm))]
                    · have h1 : ((heapIds st.heap).any (fun x2 => x2 == (x : Int))) =
                          false := by
                        cases hb : (heapIds st.heap).any (fun x2 => x2 == (x : Int)) with
                        | false => rfl
                        | true => exact absurd ((any_beq_true_iff _ _).mp hb) hm
                      have h2 : ((heapIds (insert_min_heap st.heap v
                          (du + d u v / w.max_speed * 60))).any
                          (fun x2 => x2 == (x : Int))) = false := by
                        cases hb : (heapIds (insert_min_heap st.heap v
                            (du + d u v / w.max_speed * 60))).any
                            (fun x2 => x2 == (x : Int)) with
                        | false => rfl
                        | true =>
                          rcases List.mem_cons.mp
                              (hpermv.mem_iff.mp ((any_beq_true_iff _ _).mp hb)) with
                            heq' | hmm
                          · exact absurd heq' hxne
                          · exact absurd hmm hm
                      rw [h1, h2]
                  rw [this])
              rw [hlen]
              omega
          · rw [heq]
            refine ⟨⟨hnd, hmem, hparnew⟩, le_refl _, rfl, rfl⟩
      · rw [if_neg himp]
        exact ⟨⟨hnd, hmem, hpar⟩, le_refl _, rfl, rfl⟩

/-- Id lists agreeing on membership give the same `==`-scan results. -/
theorem any_beq_eq_of_mem_iff {l1 l2 : List Int} (a : Int) (h : a ∈ l1 ↔ a ∈ l2) :
    (l1.any (fun y => y == a)) = (l2.any (fun y => y == a)) := by
  by_cases hm : a ∈ l2
  · rw [(any_beq_true_iff l1 a).mpr (h.mpr hm), (any_beq_true_iff l2 a).mpr hm]
  · have h1 : (l1.any (fun y => y == a)) = false := by
      cases hb : l1.any (fun y => y == a) with
      | false => rfl
      | true => exact absurd (h.mp ((any_beq_true_iff l1 a).mp hb)) hm
    have h2 : (l2.any (fun y => y == a)) = false := by
      cases hb : l2.any (fun y => y == a) with
      | false => rfl
      | true => exact absurd ((any_beq_true_iff l2 a).mp hb) hm
    rw [h1, h2]

/-- Folding a state-transformer that preserves a predicate preserves it. -/
theorem foldl_pres {α : Type} (P : DState → Prop) (f : DState → α → DState) :
    ∀ (l : List α), (∀ st a, a ∈ l → P st → P (f st a)) → ∀ st, P st → P (l.foldl f st) := by
  intro l
  induction l with
  | nil => intro _ st h; exact h
  | cons a t ih =>
    intro hstep st hP
    rw [List.foldl_cons]
    exact ih (fun st' b hb => hstep st' b (List.mem_cons_of_mem a hb)) _
      (hstep st a (List.mem_cons_self a t) hP)

/-- One iteration of the Dijkstra loop preserves the invariant, strictly
decreases the measure, and raises the break flag only if the end node was
just extracted (hence reachable from the start). -/
theorem dstep_spec (m : SSMap) (s : Int) (d : Int → Int → ℚ) (e : Int) (st : DState)
    (hwf : WF m) (hInv : DInv m s st) (hne : st.heap.elements ≠ []) :
    DInv m s (dstep m d e st) ∧
    dMeasure m (dstep m d e st) + 1 ≤ dMeasure m st ∧
    ((dstep m d e st).finished = true → st.finished = true ∨ Reach m s e) := by
  obtain ⟨hnd, hmem, hpar⟩ := hInv
  obtain ⟨root, rest, hre⟩ : ∃ r t, st.heap.elements = r :: t := by
    cases hel : st.heap.elements with
    | nil => exact absurd hel hne
    | cons r t => exact ⟨r, t, rfl⟩
  obtain ⟨hroot, hperm, -⟩ := extract_min_spec st.heap root rest hre
  have hids : heapIds st.heap = root.node_id :: rest.map HeapNode.node_id := by
    unfold heapIds
    rw [hre]
    rfl
  have humem : root.node_id ∈ heapIds st.heap := by
    rw [hids]
    exact List.mem_cons_self _ _
  obtain ⟨hub, huvis, hureach⟩ := hmem _ humem
  have hndc := List.nodup_cons.mp (hids ▸ hnd)
  have hids1 : List.Perm (heapIds (extract_min st.heap).2) (rest.map HeapNode.node_id) :=
    hperm.map HeapNode.node_id
  -- facts about the post-extraction state
  have hmem1 : ∀ x ∈ heapIds (extract_min st.heap).2,
      ((0 ≤ x ∧ x < (m.nodes.length : Int)) ∧
        (updA st.visited root.node_id true) x = false ∧ Reach m s x) := by
    intro x hx
    have hxr : x ∈ rest.map HeapNode.node_id := hids1.mem_iff.mp hx
    have hxold : x ∈ heapIds st.heap := by
      rw [hids]
      exact List.mem_cons_of_mem _ hxr
    obtain ⟨hxb, hxvis, hxreach⟩ := hmem x hxold
    have hxne : x ≠ root.node_id := fun hcontra => hndc.1 (hcontra ▸ hxr)
    refine ⟨hxb, ?_, hxreach⟩
    unfold updA
    rw [if_neg hxne]
    exact hxvis
  have hnd1 : (heapIds (extract_min st.heap).2).Nodup := hids1.nodup_iff.mpr hndc.2
  -- measure of the post-extraction state
  have hμ1 : ∀ (h1 : MinHeap) (vis1 : Int → Bool),
      List.Perm (heapIds h1) (rest.map HeapNode.node_id) →
      vis1 = updA st.visited root.node_id true →
      (h1.elements.length +
        ((List.range m.nodes.length).filter (fun (k : Nat) =>
          !(vis1 (k : Int)) && !((heapIds h1).any (fun x => x == (k : Int))))).length) + 1 =
      dMeasure m st := by
    intro h1 vis1 hp hv
    unfold dMeasure
    have hlen1 : h1.elements.length = rest.length := by
      have := hp.length_eq
      simpa [heapIds] using this
    have hlenst : st.heap.elements.length = rest.length + 1 := by
      rw [hre]
      rfl
    have hfil : (List.range m.nodes.length).filter (fun (k : Nat) =>
        !(vis1 (k : Int)) && !((heapIds h1).any (fun x => x == (k : Int)))) =
        (List.range m.nodes.length).filter (fun (k : Nat) =>
        !(st.visited (k : Int)) && !((heapIds st.heap).any (fun x => x == (k : Int)))) := by
      apply List.filter_congr
      intro x _
      dsimp only
      by_cases hx : (x : Int) = root.node_id
      · have hany : ((heapIds st.heap).any (fun y => y == (x : Int))) = true :=
          (any_beq_true_iff _ _).mpr (hx ▸ humem)
        have hv1 : vis1 (x : Int) = true := by
          rw [hv]
          unfold updA
          rw [if_pos hx]
        rw [hany, hv1]
        simp
      · have hv1 : vis1 (x : Int) = st.visited (x : Int) := by
          rw [hv]
          unfold updA
          rw [if_neg hx]
        have hany : ((heapIds h1).any (fun y => y == (x : Int))) =
            ((heapIds st.heap).any (fun y => y == (x : Int))) := by
          apply any_beq_eq_of_mem_iff
          rw [hp.mem_iff, hids]
          constructor
          · exact fun hmm => List.mem_cons_of_mem _ hmm
          · intro hmm
            rcases List.mem_cons.mp hmm with hc | hc
            · exact absurd hc hx
            · exact hc
        rw [hv1, hany]
    rw [hfil, hlen1, hlenst]
    omega
  have hlenx : (extract_min st.heap).2.elements.length = rest.length := by
    have := hids1.length_eq
    simpa [heapIds] using this
  unfold dstep
  dsimp only
  rw [hroot]
  by_cases hue : root.node_id = e
  · rw [if_pos hue]
    refine ⟨⟨hnd1, hmem1, hpar⟩, ?_, fun _ => Or.inr (hue ▸ hureach)⟩
    have := hμ1 (extract_min st.heap).2 (updA st.visited root.node_id true) hids1 rfl
    unfold dMeasure at this ⊢
    dsimp only at this ⊢
    omega
  · rw [if_neg hue]
    -- the relaxation folds preserve a combined predicate
    have hP := foldl_pres (fun st' =>
      DInv m s st' ∧
      dMeasure m st' ≤ rest.length +
        ((List.range m.nodes.length).filter (fun (k : Nat) =>
          !((updA st.visited root.node_id true) (k : Int)) &&
          !((heapIds (extract_min st.heap).2).any (fun x => x == (k : Int))))).length ∧
      st'.visited = updA st.visited root.node_id true ∧
      st'.finished = st.finished)
      (fun acc w => (wayNeighbors w root.node_id).foldl
        (fun acc2 v => relaxOne d acc2 root.node_id w v) acc)
      ((getNode m root.node_id).ways)
      (by
        intro st' w hw hP'
        obtain ⟨hI', hμ', hv', hf'⟩ := hP'
        have hinner := foldl_pres (fun st2 =>
          DInv m s st2 ∧
          dMeasure m st2 ≤ dMeasure m st' ∧
          st2.visited = st'.visited ∧
          st2.finished = st'.finished)
          (fun acc2 v => relaxOne d acc2 root.node_id w v)
          (wayNeighbors w root.node_id)
          (by
            intro st2 v hv hP2
            obtain ⟨hI2, hμ2, hv2, hf2⟩ := hP2
            obtain ⟨hvb, hvstep⟩ := wayNeighbors_step m hwf root.node_id hub.1 hub.2
              w hw v hv
            obtain ⟨hI3, hμ3, hv3, hf3⟩ := relaxOne_spec m s d st2 root.node_id w v
              hI2 hvb hvstep hureach
            exact ⟨hI3, le_trans hμ3 hμ2, hv3.trans hv2, hf3.trans hf2⟩)
          st' ⟨hI', le_refl _, rfl, rfl⟩
        obtain ⟨hI2, hμ2, hv2, hf2⟩ := hinner
        exact ⟨hI2, le_trans hμ2 hμ', hv2.trans hv', hf2.trans hf'⟩)
      ({ st with
        heap := (extract_min st.heap).2
        visited := updA st.visited root.node_id true })
      (by
        refine ⟨⟨hnd1, hmem1, hpar⟩, ?_, rfl, rfl⟩
        unfold dMeasure
        dsimp only
        have hlen1 : (extract_min st.heap).2.elements.length = rest.length := by
          have := hids1.length_eq
          simpa [heapIds] using this
        omega)
    obtain ⟨hIf, hμf, hvf, hff⟩ := hP
    refine ⟨hIf, ?_, ?_⟩
    · have := hμ1 (extract_min st.heap).2 (updA st.visited root.node_id true) hids1 rfl
      omega
    · intro hfin
      rw [hff] at hfin
      exact Or.inl hfin

/-- The Dijkstra loop preserves the invariant; the break flag can only be
raised for a reachable end; and with fuel at least the measure, the loop runs
to completion: it breaks at the end node or exhausts the queue. -/
theorem run_dijkstra_spec (m : SSMap) (s : Int) (d : Int → Int → ℚ) (e : Int)
    (hwf : WF m) :
    ∀ (fuel : Nat) (st : DState), DInv m s st →
      DInv m s (run_dijkstra m d e fuel st) ∧
      ((run_dijkstra m d e fuel st).finished = true →
        st.finished = true ∨ Reach m s e) ∧
      (dMeasure m st ≤ fuel →
        (run_dijkstra m d e fuel st).finished = true ∨
        (run_dijkstra m d e fuel st).heap.elements = []) := by
  intro fuel
  induction fuel with
  | zero =>
    intro st hInv
    refine ⟨hInv, fun h => Or.inl h, ?_⟩
    intro hμ
    right
    have : st.heap.elements.length = 0 := by
      unfold dMeasure at hμ
      omega
    exact List.length_eq_zero.mp this
  | succ f ih =>
    intro st hInv
    rw [run_dijkstra]
    by_cases hguard : st.finished = true ∨ st.heap.elements.length = 0
    · rw [if_pos hguard]
      refine ⟨hInv, fun h => Or.inl h, ?_⟩
      intro _
      rcases hguard with hg | hg
      · exact Or.inl hg
      · exact Or.inr (List.length_eq_zero.mp hg)
    · rw [if_neg hguard]
      have hne : st.heap.elements ≠ [] := by
        intro hc
        exact hguard (Or.inr (by rw [hc]; rfl))
      obtain ⟨hI1, hμ1, hfin1⟩ := dstep_spec m s d e st hwf hInv hne
      obtain ⟨hI2, hfin2, hterm2⟩ := ih (dstep m d e st) hI1
      refine ⟨hI2, ?_, ?_⟩
      · intro h
        rcases hfin2 h with hc | hc
        · exact hfin1 hc
        · exact Or.inr hc
      · intro hμ
        exact hterm2 (by omega)

/-- The initial router state satisfies the loop invariant. -/
theorem initState_inv (m : SSMap) (s : Int) (hs0 : 0 ≤ s)
    (hsn : s < (m.nodes.length : Int)) : DInv m s (initState m s) := by
  have hn1 : m.nodes.length ≠ 0 := by omega
  rcases insert_min_heap_ids (create_min_heap m.nodes.length) s 0 with ⟨-, hperm⟩ | ⟨hful, -⟩
  · have hperm1 : List.Perm (heapIds (insert_min_heap (create_min_heap m.nodes.length) s 0))
        [s] := by
      have : heapIds (create_min_heap m.nodes.length) ++ [s] = [s] := rfl
      rw [this] at hperm
      exact hperm
    refine ⟨?_, ?_, ?_⟩
    · exact hperm1.nodup_iff.mpr (List.nodup_singleton s)
    · intro x hx
      have : x = s := by
        have := hperm1.mem_iff.mp hx
        simpa using this
      subst this
      exact ⟨⟨hs0, hsn⟩, rfl, Relation.ReflTransGen.refl⟩
    · intro v hv
      exact absurd rfl hv
  · exact absurd hful (by simp [create_min_heap]; omega)

/-- The head of a nonempty parent chain is its starting node, and that node
is not the sentinel. -/
theorem parentChain_head (p : Int → Int) :
    ∀ (fuel : Nat) (b y : Int), y ∈ (parentChain p fuel b).head? → y = b ∧ b ≠ -1 := by
  intro fuel
  cases fuel with
  | zero => intro b y hy; simp [parentChain] at hy
  | succ f =>
    intro b y hy
    rw [parentChain] at hy
    by_cases hb : b = -1
    · rw [if_pos hb] at hy
      simp at hy
    · rw [if_neg hb] at hy
      simp only [List.head?_cons, Option.mem_def, Option.some.injEq] at hy
      exact ⟨hy.symm, hb⟩

/-- Every adjacent pair of a parent chain is a parent edge read backwards. -/
theorem parentChain_chain (p : Int → Int) (P : Int → Int → Prop)
    (hpar : ∀ v, p v ≠ -1 → P (p v) v) :
    ∀ (fuel : Nat) (b : Int), List.Chain' (fun x y => P y x) (parentChain p fuel b) := by
  intro fuel
  induction fuel with
  | zero => intro b; exact List.chain'_nil
  | succ f ih =>
    intro b
    rw [parentChain]
    by_cases hb : b = -1
    · rw [if_pos hb]
      exact List.chain'_nil
    · rw [if_neg hb]
      rw [List.chain'_cons']
      refine ⟨?_, ih (p b)⟩
      intro y hy
      obtain ⟨rfl, hpb⟩ := parentChain_head p f (p b) y hy
      exact hpar b hpb

/-- A point pair with the same point twice is never direction-violating: if
some way lists it adjacently, the same occurrence is also a legal forward
step. -/
theorem badPair_self_false (m : SSMap) (x : Int) : ¬ badPair m x x := by
  rintro ⟨hadj, hstep⟩
  unfold anyAdjacent at hadj
  rw [List.any_eq_true] at hadj
  obtain ⟨w, hw, hwadj⟩ := hadj
  unfold adjacentInWay at hwadj
  rw [List.any_eq_true] at hwadj
  obtain ⟨pr, hpr, hcond⟩ := hwadj
  have hstep' : anyStep m x x = true := by
    unfold anyStep
    rw [List.any_eq_true]
    refine ⟨w, hw, ?_⟩
    unfold stepOk
    rw [List.any_eq_true]
    refine ⟨pr, hpr, ?_⟩
    simp only [Bool.or_eq_true, Bool.and_eq_true, beq_iff_eq] at hcond
    rcases hcond with ⟨h1, h2⟩ | ⟨h1, h2⟩ <;>
      cases w.one_way <;> simp [h1, h2]
  rw [hstep'] at hstep
  exact Bool.noConfusion hstep

/-- The start node is the only queued node initially. -/
theorem initState_ids (m : SSMap) (s : Int) (hn : m.nodes.length ≠ 0) :
    List.Perm (heapIds (initState m s).heap) [s] := by
  unfold initState
  dsimp only
  rcases insert_min_heap_ids (create_min_heap m.nodes.length) s 0 with ⟨-, hperm⟩ | ⟨hful, -⟩
  · simpa [heapIds, create_min_heap] using hperm
  · exact absurd hful (by simp [create_min_heap]; omega)

/-- The initial measure is at most the node count: one queued node, and the
rest of the in-range nodes unvisited and unqueued. -/
theorem initState_measure (m : SSMap) (s : Int) (hs0 : 0 ≤ s)
    (hsn : s < (m.nodes.length : Int)) :
    dMeasure m (initState m s) ≤ m.nodes.length := by
  have hn : m.nodes.length ≠ 0 := by omega
  have hperm1 := initState_ids m s hn
  have hels : (initState m s).heap.elements.length = 1 := by
    have := hperm1.length_eq
    simpa [heapIds] using this
  have hsmem : s ∈ heapIds (initState m s).heap :=
    hperm1.mem_iff.mpr (List.mem_singleton.mpr rfl)
  have hcast : ((s.toNat : Nat) : Int) = s := by omega
  have hpredf : (fun (k : Nat) =>
      !((initState m s).visited (k : Int)) &&
      !((heapIds (initState m s).heap).any (fun x => x == (k : Int)))) s.toNat = false := by
    dsimp only
    rw [hcast, (any_beq_true_iff _ _).mpr hsmem]
    simp
  have hcnt := filter_length_le_pred (fun (k : Nat) =>
      !((initState m s).visited (k : Int)) &&
      !((heapIds (initState m s).heap).any (fun x => x == (k : Int))))
    (List.range m.nodes.length) s.toNat
    (by rw [List.mem_range]; omega) hpredf
  have hrl : (List.range m.nodes.length).length = m.nodes.length := List.length_range _
  unfold dMeasure
  rw [hels]
  omega

/-- Claim C5: on a well-formed map, no id sequence the router prints contains
an adjacent pair violating a one-way direction: every printed adjacent pair
either is connected by a way permitting the step, or (only in the degenerate
`start = end` echo) is a repeated point, which no way connects adjacently
without also permitting the step.  For distinct endpoints every adjacent
pair of the printed path is a legal direct step outright. -/
theorem claim_C5_direction_respect (m : SSMap) (d : Int → Int → ℚ) (s e : Int)
    (hwf : WF m) (l : List Int)
    (hout : (ssmap_path_create m d s e).out = some l) :
    l.Chain' (fun u v => ¬ badPair m u v) ∧
    (s ≠ e → l.Chain' (fun u v => stepRel m u v)) := by
  unfold ssmap_path_create at hout
  cases hsb : nodeOk m s with
  | false => rw [hsb] at hout; simp at hout
  | true =>
  rw [hsb] at hout
  cases heb : nodeOk m e with
  | false => rw [heb] at hout; simp at hout
  | true =>
  rw [heb] at hout
  simp only [Bool.not_true, Bool.false_eq_true, if_false] at hout
  by_cases hse : s = e
  · rw [if_pos hse] at hout
    simp only [Option.some.injEq] at hout
    subst hout
    constructor
    · rw [List.chain'_cons']
      refine ⟨?_, List.chain'_singleton e⟩
      intro y hy
      simp only [List.head?_cons, Option.mem_def, Option.some.injEq] at hy
      subst hy
      rw [hse]
      exact badPair_self_false m e
    · intro habs
      exact absurd hse habs
  · rw [if_neg hse] at hout
    have hs0 : 0 ≤ s ∧ s < (m.nodes.length : Int) := by
      unfold nodeOk at hsb
      simp only [Bool.and_eq_true, decide_eq_true_eq] at hsb
      exact hsb
    have hIf := (run_dijkstra_spec m s d e hwf m.nodes.length (initState m s)
      (initState_inv m s hs0.1 hs0.2)).1
    have hpar : ∀ v, (dijkstraFinal m d s e).parent v ≠ -1 →
        stepRel m ((dijkstraFinal m d s e).parent v) v := by
      intro v hv
      exact (hIf.2.2 v hv).1
    by_cases hpe : (dijkstraFinal m d s e).parent e = -1
    · rw [if_pos hpe] at hout
      simp at hout
    · rw [if_neg hpe] at hout
      simp only [Option.some.injEq] at hout
      subst hout
      have hchain := parentChain_chain (dijkstraFinal m d s e).parent (stepRel m)
        hpar m.nodes.length e
      have hrev : (parentChain (dijkstraFinal m d s e).parent m.nodes.length e).reverse.Chain'
          (stepRel m) := by
        rw [List.chain'_reverse]
        exact hchain
      refine ⟨?_, fun _ => hrev⟩
      refine List.Chain'.imp ?_ hrev
      intro a b hab hbad
      have hstep' : anyStep m a b = true := hab
      rw [hbad.2] at hstep'
      exact Bool.noConfusion hstep'

/-- Witness for C5 on the §8 scenario: the printed path `0 1 2 3` from node 0
to node 3 respects every direction. -/
theorem claim_C5_direction_respect_witness :
    ([0, 1, 2, 3] : List Int).Chain' (fun u v => ¬ badPair mapS u v) ∧
    ([0, 1, 2, 3] : List Int).Chain' (fun u v => stepRel mapS u v) :=
  ⟨(claim_C5_direction_respect mapS dOne 0 3 (by unfold WF; decide) [0, 1, 2, 3]
      (by with_unfolding_all decide)).1,
   (claim_C5_direction_respect mapS dOne 0 3 (by unfold WF; decide) [0, 1, 2, 3]
      (by with_unfolding_all decide)).2 (by decide)⟩

/-- Claim C6: for a well-formed map and existing, distinct, disconnected
endpoints, the router terminates with an exhausted queue, prints neither an
error line nor a path line, and the end's predecessor remains `-1`. -/
theorem claim_C6_disconnection_no_output (m : SSMap) (d : Int → Int → ℚ) (s e : Int)
    (hwf : WF m) (hs : nodeOk m s = true) (he : nodeOk m e = true) (hne : s ≠ e)
    (hnr : ¬ Reach m s e) :
    ssmap_path_create m d s e = ⟨none, none⟩ ∧
    (dijkstraFinal m d s e).parent e = -1 ∧
    (dijkstraFinal m d s e).heap.elements = [] := by
  have hs0 : 0 ≤ s ∧ s < (m.nodes.length : Int) := by
    unfold nodeOk at hs
    simp only [Bool.and_eq_true, decide_eq_true_eq] at hs
    exact hs
  obtain ⟨hIf, hfinf, htermf⟩ := run_dijkstra_spec m s d e hwf m.nodes.length
    (initState m s) (initState_inv m s hs0.1 hs0.2)
  have hdf : run_dijkstra m d e m.nodes.length (initState m s) = dijkstraFinal m d s e := rfl
  rw [hdf] at hIf hfinf htermf
  have hfin : (dijkstraFinal m d s e).finished = false := by
    cases hb : (dijkstraFinal m d s e).finished with
    | false => rfl
    | true =>
      rcases hfinf hb with hc | hc
      · exact Bool.noConfusion hc
      · exact absurd hc hnr
  have hempty : (dijkstraFinal m d s e).heap.elements = [] := by
    rcases htermf (initState_measure m s hs0.1 hs0.2) with hc | hc
    · rw [hfin] at hc
      exact Bool.noConfusion hc
    · exact hc
  have hpe : (dijkstraFinal m d s e).parent e = -1 := by
    by_contra hcontra
    exact hnr (hIf.2.2 e hcontra).2
  refine ⟨?_, hpe, hempty⟩
  unfold ssmap_path_create
  rw [hs, he]
  simp only [Bool.not_true, Bool.false_eq_true, if_false]
  rw [if_neg hne, if_pos hpe]

/-- Witness for C6 on the §8 scenario: node 3 has no outgoing step (its only
way is one-way into it), so routing from 3 to 0 prints nothing at all. -/
theorem claim_C6_disconnection_no_output_witness :
    ssmap_path_create mapS dOne 3 0 = ⟨none, none⟩ ∧
    (dijkstraFinal mapS dOne 3 0).parent 0 = -1 ∧
    (dijkstraFinal mapS dOne 3 0).heap.elements = [] :=
  claim_C6_disconnection_no_output mapS dOne 3 0 (by unfold WF; decide) (by decide)
    (by decide) (by decide)
    (by
      intro h
      rcases Relation.ReflTransGen.cases_head h with h0 | ⟨c, hc, -⟩
      · exact absurd h0 (by decide)
      · have hc' : anyStep mapS 3 c = true := hc
        unfold anyStep mapS wayS0 wayS1 wayS2 at hc'
        simp [stepOk, adjPairs] at hc')
